import Mathlib

/-!
Verification of the `yasi` string-interning library.

The library (src/lib.rs, src/serde.rs) provides `InternedString`, a handle
with three representations:

* `Heap`: an `Arc<TableString>` sharing a canonical heap allocation that is
  indexed by a global table `TABLE : RwLock<RawTable<StringRef>>` through a
  `Weak` back reference;
* `Stack`: an inline buffer of at most `STACK_STR_SIZE = 20` UTF-8 bytes;
* `Static`: a `&'static str` reference.

This file shallowly embeds the library.  Rust strings are modelled by Lean
`String` (both are sequences of Unicode scalar values); their UTF-8 encoding
is modelled explicitly as a `List Nat` of bytes.  Static strings are
modelled by an environment `env : Nat → String` assigning contents to
pointer identities, `Arc` identity by an allocation id, the `ahash` content
hash by an abstract function `hashStr : String → Nat` (every theorem is
proved for an arbitrary hash function, so hash collisions are covered), and
the global table by a list of `(hash, record)` entries, with `RawTable`'s
`get`/`insert`/`erase_entry` rendered as first-match search, append, and
first-match removal.  Concurrency is modelled by a sequential interleaving
of whole operations (each library operation holds the table lock for its
critical section, so operations linearize); the double-checked read/write
structure of `intern` is kept.
-/

namespace Yasi

/-! ## UTF-8 encoding and a strict decoder

Models `str`/`String` byte content (`as_bytes`), `std::str::from_utf8`
(strict UTF-8 validation, used by the serde visitors), and
`std::str::from_utf8_unchecked` (used by `StringRepr::as_str` on the
inline stack buffer). -/

/-- A Unicode scalar value: what a Rust `char` (and a Lean `Char`) may hold. -/
def ValidScalar (n : Nat) : Prop := n < 0x110000 ∧ (n < 0xD800 ∨ 0xE000 ≤ n)

instance (n : Nat) : Decidable (ValidScalar n) := by
  unfold ValidScalar; infer_instance

/-- UTF-8 encoding of one scalar value. -/
def utf8EncodeChar (c : Nat) : List Nat :=
  if c < 0x80 then [c]
  else if c < 0x800 then [0xC0 + c / 64, 0x80 + c % 64]
  else if c < 0x10000 then [0xE0 + c / 4096, 0x80 + c / 64 % 64, 0x80 + c % 64]
  else [0xF0 + c / 262144, 0x80 + c / 4096 % 64, 0x80 + c / 64 % 64, 0x80 + c % 64]

/-- UTF-8 encoding of a sequence of scalar values. -/
def utf8Encode : List Nat → List Nat
  | [] => []
  | c :: cs => utf8EncodeChar c ++ utf8Encode cs

/-- Is `b` a UTF-8 continuation byte (`10xxxxxx`)? -/
def isCont (b : Nat) : Bool := decide (0x80 ≤ b) && decide (b < 0xC0)

/-- Strict decoding of one UTF-8 scalar value from the front of a byte list.
Rejects overlong forms, surrogates and out-of-range values, exactly as
`std::str::from_utf8` does. -/
def decodeOne : List Nat → Option (Nat × List Nat)
  | [] => none
  | b :: t =>
    if b < 0x80 then some (b, t)
    else if b < 0xC2 then none
    else if b < 0xE0 then
      match t with
      | b1 :: t1 =>
        if isCont b1 then some ((b - 0xC0) * 64 + (b1 - 0x80), t1) else none
      | [] => none
    else if b < 0xF0 then
      match t with
      | b1 :: b2 :: t1 =>
        let c := (b - 0xE0) * 4096 + (b1 - 0x80) * 64 + (b2 - 0x80)
        if isCont b1 && isCont b2 && decide (0x800 ≤ c) &&
            (decide (c < 0xD800) || decide (0xE000 ≤ c)) then
          some (c, t1)
        else none
      | _ => none
    else if b < 0xF5 then
      match t with
      | b1 :: b2 :: b3 :: t1 =>
        let c := (b - 0xF0) * 262144 + (b1 - 0x80) * 4096 + (b2 - 0x80) * 64 + (b3 - 0x80)
        if isCont b1 && isCont b2 && isCont b3 &&
            decide (0x10000 ≤ c) && decide (c < 0x110000) then
          some (c, t1)
        else none
      | _ => none
    else none

theorem decodeOne_sound : ∀ {bs : List Nat} {c : Nat} {rest : List Nat},
    decodeOne bs = some (c, rest) → ValidScalar c ∧ bs = utf8EncodeChar c ++ rest := by
  intro bs c rest h
  match bs with
  | [] => simp [decodeOne] at h
  | b :: t =>
    simp only [decodeOne] at h
    by_cases h1 : b < 0x80
    · rw [if_pos h1] at h
      obtain ⟨rfl, rfl⟩ := Prod.mk.injEq .. ▸ Option.some.injEq .. ▸ h
      exact ⟨⟨by omega, by omega⟩, by simp [utf8EncodeChar, h1]⟩
    · rw [if_neg h1] at h
      by_cases h2 : b < 0xC2
      · simp [h2] at h
      rw [if_neg h2] at h
      by_cases h3 : b < 0xE0
      · rw [if_pos h3] at h
        match t with
        | [] => simp at h
        | b1 :: t1 =>
          simp only [isCont] at h
          split at h
          · rename_i hc
            simp only [Bool.and_eq_true, decide_eq_true_eq] at hc
            obtain ⟨rfl, rfl⟩ := Prod.mk.injEq .. ▸ Option.some.injEq .. ▸ h
            refine ⟨⟨by omega, by omega⟩, ?_⟩
            simp only [utf8EncodeChar]
            rw [if_neg (by omega), if_pos (by omega)]
            have e1 : 0xC0 + ((b - 0xC0) * 64 + (b1 - 0x80)) / 64 = b := by omega
            have e2 : 0x80 + ((b - 0xC0) * 64 + (b1 - 0x80)) % 64 = b1 := by omega
            simp [e1, e2]
          · simp at h
      rw [if_neg h3] at h
      by_cases h4 : b < 0xF0
      · rw [if_pos h4] at h
        match t with
        | [] => simp at h
        | [b1] => simp at h
        | b1 :: b2 :: t1 =>
          simp only [isCont] at h
          split at h
          · rename_i hc
            simp only [Bool.and_eq_true, Bool.or_eq_true, decide_eq_true_eq] at hc
            obtain ⟨⟨⟨⟨hc1a, hc1b⟩, hc2a, hc2b⟩, hge⟩, hsur⟩ := hc
            obtain ⟨rfl, rfl⟩ := Prod.mk.injEq .. ▸ Option.some.injEq .. ▸ h
            refine ⟨⟨by omega, by omega⟩, ?_⟩
            simp only [utf8EncodeChar]
            rw [if_neg (by omega), if_neg (by omega), if_pos (by omega)]
            have e1 : 0xE0 + ((b - 0xE0) * 4096 + (b1 - 0x80) * 64 + (b2 - 0x80)) / 4096 = b := by
              omega
            have e2 : 0x80 + ((b - 0xE0) * 4096 + (b1 - 0x80) * 64 + (b2 - 0x80)) / 64 % 64 = b1 := by
              omega
            have e3 : 0x80 + ((b - 0xE0) * 4096 + (b1 - 0x80) * 64 + (b2 - 0x80)) % 64 = b2 := by
              omega
            simp [e1, e2, e3]
          · simp at h
      rw [if_neg h4] at h
      by_cases h5 : b < 0xF5
      · rw [if_pos h5] at h
        match t with
        | [] => simp at h
        | [b1] => simp at h
        | [b1, b2] => simp at h
        | b1 :: b2 :: b3 :: t1 =>
          simp only [isCont] at h
          split at h
          · rename_i hc
            simp only [Bool.and_eq_true, decide_eq_true_eq] at hc
            obtain ⟨⟨⟨⟨⟨hc1a, hc1b⟩, hc2a, hc2b⟩, hc3a, hc3b⟩, hge⟩, hlt⟩ := hc
            obtain ⟨rfl, rfl⟩ := Prod.mk.injEq .. ▸ Option.some.injEq .. ▸ h
            refine ⟨⟨by omega, by omega⟩, ?_⟩
            simp only [utf8EncodeChar]
            rw [if_neg (by omega), if_neg (by omega), if_neg (by omega)]
            have e1 : 0xF0 + ((b - 0xF0) * 262144 + (b1 - 0x80) * 4096 + (b2 - 0x80) * 64 +
                (b3 - 0x80)) / 262144 = b := by omega
            have e2 : 0x80 + ((b - 0xF0) * 262144 + (b1 - 0x80) * 4096 + (b2 - 0x80) * 64 +
                (b3 - 0x80)) / 4096 % 64 = b1 := by omega
            have e3 : 0x80 + ((b - 0xF0) * 262144 + (b1 - 0x80) * 4096 + (b2 - 0x80) * 64 +
                (b3 - 0x80)) / 64 % 64 = b2 := by omega
            have e4 : 0x80 + ((b - 0xF0) * 262144 + (b1 - 0x80) * 4096 + (b2 - 0x80) * 64 +
                (b3 - 0x80)) % 64 = b3 := by omega
            simp [e1, e2, e3, e4]
          · simp at h
      · simp [h5] at h

theorem utf8EncodeChar_length_pos (c : Nat) : 0 < (utf8EncodeChar c).length := by
  unfold utf8EncodeChar
  split
  · simp
  split
  · simp
  split
  · simp
  · simp

theorem decodeOne_length {bs : List Nat} {c : Nat} {rest : List Nat}
    (h : decodeOne bs = some (c, rest)) : rest.length < bs.length := by
  obtain ⟨-, h2⟩ := decodeOne_sound h
  have := utf8EncodeChar_length_pos c
  subst h2
  simp only [List.length_append]
  omega

/-- Strict decoding of one scalar value succeeds on its own encoding. -/
theorem decodeOne_encode {c : Nat} (hv : ValidScalar c) (rest : List Nat) :
    decodeOne (utf8EncodeChar c ++ rest) = some (c, rest) := by
  obtain ⟨hlt, hsur⟩ := hv
  unfold utf8EncodeChar
  by_cases h1 : c < 0x80
  · simp [h1, decodeOne]
  rw [if_neg h1]
  by_cases h2 : c < 0x800
  · rw [if_pos h2]
    simp only [List.cons_append, List.nil_append, decodeOne, isCont]
    rw [if_neg (by omega), if_neg (by omega), if_pos (by omega)]
    rw [if_pos (by simp only [Bool.and_eq_true, decide_eq_true_eq]; omega)]
    simp only [Option.some.injEq, Prod.mk.injEq]
    exact ⟨by omega, trivial⟩
  rw [if_neg h2]
  by_cases h3 : c < 0x10000
  · rw [if_pos h3]
    simp only [List.cons_append, List.nil_append, decodeOne, isCont]
    rw [if_neg (by omega), if_neg (by omega), if_neg (by omega), if_pos (by omega)]
    have e : (0xE0 + c / 4096 - 0xE0) * 4096 + (0x80 + c / 64 % 64 - 0x80) * 64 +
        (0x80 + c % 64 - 0x80) = c := by omega
    rw [if_pos (by
      simp only [e, Bool.and_eq_true, Bool.or_eq_true, decide_eq_true_eq]
      omega)]
    simp only [Option.some.injEq, Prod.mk.injEq]
    exact ⟨by omega, trivial⟩
  · rw [if_neg h3]
    simp only [List.cons_append, List.nil_append, decodeOne, isCont]
    rw [if_neg (by omega), if_neg (by omega), if_neg (by omega), if_neg (by omega),
      if_pos (by omega)]
    have e : (0xF0 + c / 262144 - 0xF0) * 262144 + (0x80 + c / 4096 % 64 - 0x80) * 4096 +
        (0x80 + c / 64 % 64 - 0x80) * 64 + (0x80 + c % 64 - 0x80) = c := by omega
    rw [if_pos (by
      simp only [e, Bool.and_eq_true, decide_eq_true_eq]
      omega)]
    simp only [Option.some.injEq, Prod.mk.injEq]
    exact ⟨by omega, trivial⟩

/-- Strict UTF-8 decoding of a whole byte list. -/
def utf8Decode (bs : List Nat) : Option (List Nat) :=
  if bs.isEmpty then some []
  else
    match h : decodeOne bs with
    | some (c, rest) => (utf8Decode rest).map (c :: ·)
    | none => none
termination_by bs.length
decreasing_by exact decodeOne_length h

theorem utf8Decode_encode : ∀ {cs : List Nat}, (∀ c ∈ cs, ValidScalar c) →
    utf8Decode (utf8Encode cs) = some cs := by
  intro cs
  induction cs with
  | nil => intro _; simp [utf8Encode, utf8Decode]
  | cons c cs ih =>
    intro hv
    have hvc : ValidScalar c := hv c (by simp)
    have hne : (utf8Encode (c :: cs)).isEmpty = false := by
      have hp := utf8EncodeChar_length_pos c
      simp only [utf8Encode]
      cases hE : utf8EncodeChar c with
      | nil => rw [hE] at hp; simp at hp
      | cons x xs => simp
    rw [utf8Decode, if_neg (by simp [hne])]
    have hd : decodeOne (utf8Encode (c :: cs)) = some (c, utf8Encode cs) := by
      simpa [utf8Encode] using decodeOne_encode hvc (utf8Encode cs)
    split
    · rename_i c' rest' heq
      rw [hd] at heq
      obtain ⟨rfl, rfl⟩ := Prod.mk.injEq .. ▸ Option.some.injEq .. ▸ heq.symm
      rw [ih (fun x hx => hv x (by simp [hx]))]
      rfl
    · rename_i heq
      rw [hd] at heq
      cases heq

theorem utf8Decode_sound_aux : ∀ (n : Nat) (bs cs : List Nat), bs.length ≤ n →
    utf8Decode bs = some cs → (∀ c ∈ cs, ValidScalar c) ∧ utf8Encode cs = bs := by
  intro n
  induction n with
  | zero =>
    intro bs cs hlen h
    have hbs : bs = [] := List.length_eq_zero.mp (Nat.le_zero.mp hlen)
    subst hbs
    rw [utf8Decode] at h
    simp only [List.isEmpty_nil, if_pos] at h
    obtain rfl := (Option.some.injEq .. ▸ h).symm
    exact ⟨by simp, rfl⟩
  | succ n ih =>
    intro bs cs hlen h
    by_cases hbs : bs.isEmpty
    · rw [utf8Decode, if_pos hbs] at h
      obtain rfl := (Option.some.injEq .. ▸ h).symm
      rw [List.isEmpty_iff] at hbs
      subst hbs
      exact ⟨by simp, rfl⟩
    · rw [utf8Decode, if_neg hbs] at h
      split at h
      · rename_i c rest heq
        obtain ⟨hv, henc⟩ := decodeOne_sound heq
        match hm : utf8Decode rest with
        | none => rw [hm] at h; cases h
        | some cs' =>
          rw [hm] at h
          obtain rfl := (Option.some.injEq .. ▸ h).symm
          have hrest : rest.length ≤ n := by
            have := decodeOne_length heq
            omega
          obtain ⟨hv', henc'⟩ := ih rest cs' hrest hm
          refine ⟨?_, ?_⟩
          · intro x hx
            rcases List.mem_cons.mp hx with rfl | hx
            · exact hv
            · exact hv' x hx
          · simp only [utf8Encode, henc', henc]
      · cases h

theorem utf8Decode_sound {bs cs : List Nat} (h : utf8Decode bs = some cs) :
    (∀ c ∈ cs, ValidScalar c) ∧ utf8Encode cs = bs :=
  utf8Decode_sound_aux bs.length bs cs le_rfl h

/-- UTF-8 encodings are uniquely decodable, hence injective. -/
theorem utf8Encode_injective {cs₁ cs₂ : List Nat}
    (h₁ : ∀ c ∈ cs₁, ValidScalar c) (h₂ : ∀ c ∈ cs₂, ValidScalar c)
    (h : utf8Encode cs₁ = utf8Encode cs₂) : cs₁ = cs₂ := by
  have e₁ := utf8Decode_encode h₁
  have e₂ := utf8Decode_encode h₂
  rw [h, e₂] at e₁
  exact (Option.some.injEq .. ▸ e₁).symm

theorem utf8Encode_append (l₁ l₂ : List Nat) :
    utf8Encode (l₁ ++ l₂) = utf8Encode l₁ ++ utf8Encode l₂ := by
  induction l₁ with
  | nil => simp [utf8Encode]
  | cons c l ih => simp [utf8Encode, ih]

/-! ## Rust strings as Lean strings -/

/-- The UTF-8 bytes of a string: Rust `str::as_bytes` / `String::as_bytes`. -/
def strBytes (s : String) : List Nat := utf8Encode (s.data.map Char.toNat)

theorem charToNat_valid (c : Char) : ValidScalar c.toNat := by
  have h := c.valid
  unfold Nat.isValidChar UInt32.isValidChar at h
  show ValidScalar c.val.toNat
  unfold ValidScalar
  rcases h with h | ⟨h1, h2⟩ <;> (constructor <;> omega)

theorem charToNat_ofNat {n : Nat} (h : n.isValidChar) : (Char.ofNat n).toNat = n := by
  simp only [Char.ofNat, h, dif_pos]
  rfl

theorem validScalar_isValidChar {n : Nat} (h : ValidScalar n) : n.isValidChar := by
  obtain ⟨h1, h2⟩ := h
  unfold Nat.isValidChar
  omega

/-- Decoding raw bytes to a string: Rust `std::str::from_utf8` /
`String::from_utf8` (an `Err` is modelled as `none`). -/
def strFromUtf8 (bs : List Nat) : Option String :=
  (utf8Decode bs).map (fun cs => String.mk (cs.map Char.ofNat))

theorem strBytes_valid (s : String) : ∀ c ∈ s.data.map Char.toNat, ValidScalar c := by
  intro c hc
  obtain ⟨x, -, rfl⟩ := List.mem_map.mp hc
  exact charToNat_valid x

/-- Decoding with `from_utf8` inverts `as_bytes`. -/
theorem strFromUtf8_strBytes (s : String) : strFromUtf8 (strBytes s) = some s := by
  unfold strFromUtf8 strBytes
  rw [utf8Decode_encode (strBytes_valid s)]
  simp only [Option.map_some', Option.some.injEq, List.map_map]
  have : ∀ x : Char, (Char.ofNat ∘ Char.toNat) x = x := fun x => Char.ofNat_toNat x
  rw [List.map_congr_left (fun x _ => this x)]
  simp

/-- A successful `from_utf8` returns a string with exactly the input bytes. -/
theorem strFromUtf8_sound {bs : List Nat} {s : String} (h : strFromUtf8 bs = some s) :
    strBytes s = bs := by
  unfold strFromUtf8 at h
  match hm : utf8Decode bs with
  | none => rw [hm] at h; cases h
  | some cs =>
    rw [hm] at h
    simp only [Option.map_some', Option.some.injEq] at h
    obtain ⟨hv, henc⟩ := utf8Decode_sound hm
    subst h
    unfold strBytes
    simp only [List.map_map]
    have : ∀ x ∈ cs, (Char.toNat ∘ Char.ofNat) x = x := fun x hx =>
      charToNat_ofNat (validScalar_isValidChar (hv x hx))
    rw [List.map_congr_left this]
    simpa using henc

theorem strBytes_injective {s₁ s₂ : String} (h : strBytes s₁ = strBytes s₂) : s₁ = s₂ := by
  have h₁ := strFromUtf8_strBytes s₁
  have h₂ := strFromUtf8_strBytes s₂
  rw [h, h₂] at h₁
  exact (Option.some.injEq .. ▸ h₁).symm

theorem strBytes_append (s₁ s₂ : String) :
    strBytes (s₁ ++ s₂) = strBytes s₁ ++ strBytes s₂ := by
  unfold strBytes
  rw [String.data_append, List.map_append, utf8Encode_append]

/-! ## Byte-wise lexicographic ordering

Rust's `Ord for str` compares the UTF-8 byte sequences lexicographically;
`lexCmp` is that comparison on byte lists, and `strCmp` models `str::cmp`. -/

def lexCmp : List Nat → List Nat → Ordering
  | [], [] => .eq
  | [], _ :: _ => .lt
  | _ :: _, [] => .gt
  | a :: l₁, b :: l₂ =>
    if a < b then .lt else if b < a then .gt else lexCmp l₁ l₂

theorem lexCmp_self (l : List Nat) : lexCmp l l = .eq := by
  induction l with
  | nil => rfl
  | cons a l ih => simp [lexCmp, ih]

theorem lexCmp_eq_iff (l₁ l₂ : List Nat) : lexCmp l₁ l₂ = .eq ↔ l₁ = l₂ := by
  constructor
  · intro h
    induction l₁ generalizing l₂ with
    | nil => cases l₂ with
      | nil => rfl
      | cons b l => simp [lexCmp] at h
    | cons a l ih =>
      cases l₂ with
      | nil => simp [lexCmp] at h
      | cons b l' =>
        simp only [lexCmp] at h
        split at h
        · cases h
        split at h
        · cases h
        · have : a = b := by omega
          rw [this, ih l' h]
  · intro h
    subst h
    exact lexCmp_self l₁

/-- Model of `str::cmp` (byte-wise lexicographic). -/
def strCmp (a b : String) : Ordering := lexCmp (strBytes a) (strBytes b)

/-! ## The streaming hash / inline-capture adapter (`DisplayHasher`)

`DisplayHasher::write_str` feeds each formatted chunk to the hasher and, as
long as the accumulated length stays within `STACK_STR_SIZE = 20` bytes,
also appends the chunk to an inline buffer; the first chunk that would
overflow discards the buffer for good (`x => *x = None`).  The hash half is
modelled by the abstract `hashStr`; the capture half is modelled here on
the chunks' byte lists. -/

def writeChunk (acc : Option (List Nat)) (chunk : List Nat) : Option (List Nat) :=
  match acc with
  | none => none
  | some stack =>
    if stack.length + chunk.length ≤ 20 then some (stack ++ chunk) else none

/-- The inline-capture component of `DisplayHasher::hash_and_stack` over the
sequence of chunks written by the value's `Display` implementation. -/
def stackCapture (chunks : List (List Nat)) : Option (List Nat) :=
  chunks.foldl writeChunk (some [])

theorem foldl_writeChunk_some {chunks : List (List Nat)} : ∀ {acc b : List Nat},
    chunks.foldl writeChunk (some acc) = some b →
    b = acc ++ chunks.flatten ∧ b.length ≤ 20 ∨ chunks = [] ∧ b = acc := by
  induction chunks with
  | nil => intro acc b h; right; exact ⟨rfl, (Option.some.injEq .. ▸ h).symm⟩
  | cons chunk chunks ih =>
    intro acc b h
    left
    simp only [List.foldl_cons] at h
    match hw : writeChunk (some acc) chunk with
    | none =>
      exfalso
      rw [hw] at h
      have : ∀ acc', List.foldl writeChunk none (acc') = (none : Option (List Nat)) := by
        intro acc'
        induction acc' with
        | nil => rfl
        | cons x xs ihx => simp [List.foldl_cons, writeChunk, ihx]
      rw [this chunks] at h
      cases h
    | some acc' =>
      rw [hw] at h
      simp only [writeChunk] at hw
      split at hw
      · rename_i hlen
        obtain rfl := (Option.some.injEq .. ▸ hw).symm
        rcases ih h with ⟨hb, hle⟩ | ⟨rfl, rfl⟩
        · constructor
          · rw [hb]; simp
          · exact hle
        · constructor
          · simp
          · simpa using hlen
      · cases hw

/-- If the capture survives, the buffer is exactly the concatenation of all
chunks (never a truncation) and fits in 20 bytes. -/
theorem stackCapture_some {chunks : List (List Nat)} {b : List Nat}
    (h : stackCapture chunks = some b) : b = chunks.flatten ∧ b.length ≤ 20 := by
  rcases foldl_writeChunk_some h with ⟨hb, hle⟩ | ⟨rfl, rfl⟩
  · exact ⟨by simpa using hb, hle⟩
  · exact ⟨rfl, by simp⟩

theorem stackCapture_single (b : List Nat) :
    stackCapture [b] = if b.length ≤ 20 then some b else none := by
  unfold stackCapture writeChunk
  simp

theorem stackCapture_single_of_le {b : List Nat} (h : b.length ≤ 20) :
    stackCapture [b] = some b := by
  rw [stackCapture_single, if_pos h]

theorem stackCapture_single_of_gt {b : List Nat} (h : 20 < b.length) :
    stackCapture [b] = none := by
  rw [stackCapture_single, if_neg (by omega)]

/-! ## The data model

`Params` packages the ambient facts of the embedding: the contents of the
process's static strings (`env`, indexed by pointer identity), the content
hash (`DisplayHasher::<TableHasher>::hash`, which streams the rendered text
through `ahash`; abstract here so all theorems hold for every hash
function, collisions included), and `TableHasher::default().finish()`, the
hash of an empty write sequence used by the fallback erase in
`impl Drop for TableString`. -/

structure Params where
  env : Nat → String
  hashStr : String → Nat
  emptyHash : Nat

/-- A table record: `enum StringRef { Heap(Weak<TableString>), Static(&'static str) }`.
The `Weak` is identified by the allocation id it points to; the static
reference by its pointer identity. -/
inductive StringRef where
  | heap (id : Nat)
  | static (ptr : Nat)
deriving DecidableEq, Repr

/-- One slot of the `RawTable`: the hash it was inserted under plus the value. -/
structure Entry where
  hash : Nat
  ref : StringRef
deriving DecidableEq, Repr

/-- Model of `enum StringRepr { Heap(Arc<TableString>), Stack(ArrayVec<[u8; 20]>), Static(&'static str) }`.
A `heap` handle is an `Arc`: it is identified by its allocation id and
gives direct access to the allocation's owned string.  (`InternedString`
is a newtype around `StringRepr`; the wrapper is collapsed here, since
every `InternedString` trait impl delegates to `StringRepr`.) -/
inductive StringRepr where
  | heap (id : Nat) (content : String)
  | stack (bytes : List Nat)
  | static (ptr : Nat)
deriving DecidableEq, Repr

/-- The live canonical allocations (`TableString`s): id ↦ owned string.
An entry is present exactly while the `Arc`'s strong count is positive. -/
abbrev AllocMap := List (Nat × String)

/-- Model of `Weak::upgrade`: succeeds iff the allocation is still live. -/
def lookupAlloc (m : AllocMap) (id : Nat) : Option String :=
  (m.find? (fun a => a.1 == id)).map (fun a => a.2)

/-- The global interner state: live allocations, the `TABLE`, and the next
fresh allocation identity. -/
structure St where
  allocs : AllocMap
  table : List Entry
  nextId : Nat
deriving DecidableEq, Repr

/-- Model of `StringRepr::as_str`.  On a `Stack` buffer the source uses
`str::from_utf8_unchecked`; decoding is total here (defaulting to `""`),
and theorem `C10` below shows reachable stack buffers always decode. -/
def StringRepr.as_str (P : Params) : StringRepr → String
  | .heap _ content => content
  | .stack bytes => (strFromUtf8 bytes).getD ""
  | .static ptr => P.env ptr

/-- Model of `impl PartialEq for StringRepr`: `Arc::ptr_eq` for two heap handles,
`std::ptr::eq` for two static handles, byte content comparison for every
other pair. -/
def reprEq (P : Params) : StringRepr → StringRepr → Bool
  | .heap id₁ _, .heap id₂ _ => id₁ == id₂
  | .static p₁, .static p₂ => p₁ == p₂
  | a, b => a.as_str P == b.as_str P

/-- Model of `impl Ord for StringRepr`: identity fast path, then `str::cmp`. -/
def reprCmp (P : Params) (a b : StringRepr) : Ordering :=
  if reprEq P a b then .eq else strCmp (a.as_str P) (b.as_str P)

/-- Do the two handles fall in one of the identity-compared arms of
`PartialEq for StringRepr` (Heap/Heap or Static/Static)? -/
def sameVariantIdentity : StringRepr → StringRepr → Bool
  | .heap _ _, .heap _ _ => true
  | .static _, .static _ => true
  | _, _ => false

/-- Model of `DisplayEq::eq(src, target)`: renders `src` chunk-by-chunk against the
stored bytes of `target`, succeeding iff the rendered byte stream equals
`target` exactly. -/
def displayEq (src target : String) : Bool := strBytes src == strBytes target

/-- The `eq` closure passed to the table by `intern` / `intern_static`: a
heap record matches iff its weak upgrade succeeds and the live content
renders equal; a static record matches iff its content renders equal. -/
def refEq (P : Params) (allocs : AllocMap) (s : String) : StringRef → Bool
  | .heap id =>
    match lookupAlloc allocs id with
    | some content => displayEq s content
    | none => false
  | .static ptr => displayEq s (P.env ptr)

def entryPred (P : Params) (allocs : AllocMap) (s : String) (h : Nat) (e : Entry) : Bool :=
  e.hash == h && refEq P allocs s e.ref

/-- Model of `RawTable::get(hash, eq)`: first entry in the bucket for `hash`
satisfying `eq`. -/
def tableGet (t : List Entry) (h : Nat) (p : StringRef → Bool) : Option StringRef :=
  (t.find? (fun e => e.hash == h && p e.ref)).map (fun e => e.ref)

/-- Model of `DisplayHasher::hash_and_stack` for a value whose `Display` writes its
text in one chunk (`str`/`String` formatting): the streamed hash plus the
inline capture. -/
def hash_and_stack (P : Params) (s : String) : Nat × Option (List Nat) :=
  (P.hashStr s, stackCapture [strBytes s])

/-- The table-miss tail of `intern`: materialize the canonical allocation
with a fresh identity, insert a weak record under `hash`, return the new
heap handle. -/
def internCreate (s : String) (h : Nat) (st : St) : StringRepr × St :=
  (.heap st.nextId s,
    { allocs := st.allocs ++ [(st.nextId, s)],
      table := st.table ++ [⟨h, .heap st.nextId⟩],
      nextId := st.nextId + 1 })

/-- The WRITE section of `intern`: re-check under the exclusive lock
(double-checked locking), then create on a confirmed miss. -/
def internWrite (P : Params) (s : String) (h : Nat) (st : St) : StringRepr × St :=
  match tableGet st.table h (refEq P st.allocs s) with
  | some (.heap id) =>
    match lookupAlloc st.allocs id with
    | some content => (.heap id content, st)
    | none => internCreate s h st
  | some (.static ptr) => (.static ptr, st)
  | none => internCreate s h st

/-- Model of `InternedString::intern`: hash + inline capture; Stack short-circuit;
READ section under the shared lock; then the WRITE section. -/
def intern (P : Params) (s : String) (st : St) : StringRepr × St :=
  match hash_and_stack P s with
  | (_, some stack) => (.stack stack, st)
  | (h, none) =>
    match tableGet st.table h (refEq P st.allocs s) with
    | some (.heap id) =>
      match lookupAlloc st.allocs id with
      | some content => (.heap id content, st)
      | none => internWrite P s h st
    | some (.static ptr) => (.static ptr, st)
    | none => internWrite P s h st

/-- Model of `InternedString::from_display`: formats the value and interns the
rendered text (via the `IntoString` adapter, whose `Display` and
`Into<String>` agree by construction). -/
def from_display (P : Params) (s : String) (st : St) : StringRepr × St :=
  intern P s st

/-- Model of `InternedString::from_static`: wraps the reference directly; no table
access, no length check. -/
def from_static (ptr : Nat) : StringRepr :=
  .static ptr

/-- Model of `RawTable::get_mut` + conditional overwrite, as used by
`intern_static`: find the first entry matching `pred`; if its record is
not already `Static`, overwrite the record with the given static
reference.  Returns `none` when no entry matches. -/
def overwriteFirst (pred : Entry → Bool) (ptr : Nat) : List Entry → Option (List Entry)
  | [] => none
  | e :: t =>
    if pred e then
      match e.ref with
      | .static _ => some (e :: t)
      | .heap _ => some (⟨e.hash, .static ptr⟩ :: t)
    else (overwriteFirst pred ptr t).map (e :: ·)

/-- Model of `InternedString::intern_static`: Stack short-circuit, then under the
exclusive lock either redirect an existing live slot to the static memory
(unless it is already static) or insert a fresh static record. -/
def intern_static (P : Params) (ptr : Nat) (st : St) : StringRepr × St :=
  let s := P.env ptr
  match hash_and_stack P s with
  | (_, some stack) => (.stack stack, st)
  | (h, none) =>
    match overwriteFirst (entryPred P st.allocs s h) ptr st.table with
    | some t => (.static ptr, { st with table := t })
    | none => (.static ptr, { st with table := st.table ++ [⟨h, .static ptr⟩] })

/-- Strong count of an allocation: the number of live handles sharing it
(the table holds only a weak reference). -/
def strongCount (hs : List StringRepr) (id : Nat) : Nat :=
  (hs.filter (fun h => match h with | .heap id' _ => id' == id | _ => false)).length

/-- The `eq` closure of `impl Drop for TableString`: matches a heap record
whose weak reference has no remaining owners; never matches a static
record. -/
def expiredPred (hs : List StringRepr) : StringRef → Bool
  | .heap id => strongCount hs id == 0
  | .static _ => false

/-- Model of `RawTable::erase_entry(hash, eq)`: remove the first entry in the bucket
for `hash` satisfying `eq`; report whether anything was removed. -/
def eraseFirst (pred : Entry → Bool) : List Entry → Option (List Entry)
  | [] => none
  | e :: t =>
    if pred e then some t else (eraseFirst pred t).map (e :: ·)

/-- Model of `impl Drop for TableString`: recompute the content hash and erase the
expired slot; on failure, fall back to erasing under the empty hash. -/
def tableStringDrop (P : Params) (content : String) (hs : List StringRepr)
    (t : List Entry) : List Entry :=
  match eraseFirst (fun e => e.hash == P.hashStr content && expiredPred hs e.ref) t with
  | some t' => t'
  | none =>
    match eraseFirst (fun e => e.hash == P.emptyHash && expiredPred hs e.ref) t with
    | some t' => t'
    | none => t

/-- Dropping one handle, `rest` being the handles that remain alive: a heap
handle whose strong count reaches zero deallocates the `TableString`
(running its `Drop`); stack and static handles release nothing. -/
def dropHandle (P : Params) (h : StringRepr) (rest : List StringRepr) (st : St) : St :=
  match h with
  | .heap id content =>
    if strongCount rest id == 0 then
      { st with
        allocs := st.allocs.filter (fun a => a.1 != id),
        table := tableStringDrop P content rest st.table }
    else st
  | _ => st

/-- The serde `InternedStringVisitor::visit_bytes`: decode via
`std::str::from_utf8` and intern, or fail with an error carrying the
offending bytes (`visit_byte_buf` behaves identically). -/
def visit_bytes (P : Params) (v : List Nat) (st : St) :
    Except (List Nat) (StringRepr × St) :=
  match strFromUtf8 v with
  | some s => .ok (intern P s st)
  | none => .error v

/-! ## The concurrent system as a sequential transition relation -/

/-- A configuration: the global state plus the multiset of live handles. -/
structure Cfg where
  st : St
  handles : List StringRepr
deriving DecidableEq, Repr

/-- One linearized library operation. -/
inductive Step (P : Params) : Cfg → Cfg → Prop where
  | intern (s : String) (c : Cfg) :
      Step P c ⟨(intern P s c.st).2, (intern P s c.st).1 :: c.handles⟩
  | intern_static (ptr : Nat) (c : Cfg) :
      Step P c ⟨(intern_static P ptr c.st).2, (intern_static P ptr c.st).1 :: c.handles⟩
  | from_static (ptr : Nat) (c : Cfg) :
      Step P c ⟨c.st, from_static ptr :: c.handles⟩
  | clone (h : StringRepr) (c : Cfg) (hmem : h ∈ c.handles) :
      Step P c ⟨c.st, h :: c.handles⟩
  | drop (l r : List StringRepr) (h : StringRepr) (c : Cfg)
      (hsplit : c.handles = l ++ h :: r) :
      Step P c ⟨dropHandle P h (l ++ r) c.st, l ++ r⟩

/-- The empty initial configuration (`RawTable::new`, no handles). -/
def initCfg : Cfg := ⟨⟨[], [], 0⟩, []⟩

inductive ReachesFrom (P : Params) : Cfg → Cfg → Prop where
  | refl (c : Cfg) : ReachesFrom P c c
  | tail {a b c : Cfg} : ReachesFrom P a b → Step P b c → ReachesFrom P a c

/-- A configuration the library can actually be in. -/
def Reachable (P : Params) (c : Cfg) : Prop := ReachesFrom P initCfg c

theorem ReachesFrom.trans {P : Params} {a b c : Cfg}
    (h₁ : ReachesFrom P a b) (h₂ : ReachesFrom P b c) : ReachesFrom P a c := by
  induction h₂ with
  | refl => exact h₁
  | tail _ hs ih => exact .tail ih hs

/-! ## Support lemmas about the model's primitive operations -/

theorem lookupAlloc_mem {m : AllocMap} {id : Nat} {s : String}
    (h : lookupAlloc m id = some s) : (id, s) ∈ m := by
  unfold lookupAlloc at h
  match hf : m.find? (fun a => a.1 == id) with
  | none => rw [hf] at h; cases h
  | some a =>
    rw [hf] at h
    simp only [Option.map_some', Option.some.injEq] at h
    have hm := List.mem_of_find?_eq_some hf
    have hp := List.find?_some hf
    simp only [beq_iff_eq] at hp
    have : a = (id, s) := by
      cases a
      simp_all
    rw [← this]
    exact hm

theorem lookupAlloc_of_not_mem {m : AllocMap} {id : Nat}
    (h : ∀ a ∈ m, a.1 ≠ id) : lookupAlloc m id = none := by
  unfold lookupAlloc
  rw [List.find?_eq_none.mpr]
  · rfl
  · intro a ha
    simp only [beq_iff_eq]
    exact h a ha

theorem lookupAlloc_append_some {m l : AllocMap} {id : Nat} {s : String}
    (h : lookupAlloc m id = some s) : lookupAlloc (m ++ l) id = some s := by
  unfold lookupAlloc at h ⊢
  rw [List.find?_append]
  obtain ⟨a, hf, ha⟩ : ∃ a, m.find? (fun x => x.1 == id) = some a ∧ a.2 = s := by
    cases hfm : m.find? (fun x => x.1 == id) with
    | none => rw [hfm] at h; cases h
    | some a =>
      rw [hfm] at h
      simp only [Option.map_some', Option.some.injEq] at h
      exact ⟨a, rfl, h⟩
  rw [hf]
  simp [Option.or, ha]

theorem lookupAlloc_append_elim {m : AllocMap} {i id : Nat} {x s : String}
    (h : lookupAlloc (m ++ [(i, x)]) id = some s) :
    lookupAlloc m id = some s ∨ (id = i ∧ s = x) := by
  unfold lookupAlloc at h ⊢
  rw [List.find?_append] at h
  match hf : m.find? (fun a => a.1 == id) with
  | some a =>
    rw [hf] at h
    rw [hf]
    simp only [Option.or] at h
    left
    exact h
  | none =>
    rw [hf] at h
    simp only [Option.or] at h
    right
    simp only [List.find?] at h
    split at h
    · rename_i hbeq
      simp only [beq_iff_eq] at hbeq
      simp only [Option.map_some', Option.some.injEq] at h
      exact ⟨hbeq.symm, h.symm⟩
    · cases h

theorem lookupAlloc_append_self {m : AllocMap} {i : Nat} {x : String}
    (h : lookupAlloc m i = none) : lookupAlloc (m ++ [(i, x)]) i = some x := by
  unfold lookupAlloc at h ⊢
  rw [List.find?_append]
  match hf : m.find? (fun a => a.1 == i) with
  | some a => rw [hf] at h; cases h
  | none =>
    rw [hf]
    simp [Option.or, List.find?]

theorem lookupAlloc_filter_ne {m : AllocMap} {i id : Nat} (hne : id ≠ i) :
    lookupAlloc (m.filter (fun a => a.1 != i)) id = lookupAlloc m id := by
  unfold lookupAlloc
  induction m with
  | nil => rfl
  | cons a m ih =>
    by_cases ha : a.1 = id
    · have h1 : (a.1 != i) = true := by simp only [ha, ne_eq, bne_iff_ne]; exact hne
      have h2 : (a.1 == id) = true := by simp [ha]
      simp only [List.filter, h1, List.find?, h2]
    · have h2 : (a.1 == id) = false := by simp [ha]
      by_cases hai : a.1 = i
      · have h1 : (a.1 != i) = false := by simp [hai]
        simp only [List.filter, h1, List.find?, h2]
        exact ih
      · have h1 : (a.1 != i) = true := by simp [hai]
        simp only [List.filter, h1, List.find?, h2]
        exact ih

theorem lookupAlloc_filter_self {m : AllocMap} {i : Nat} :
    lookupAlloc (m.filter (fun a => a.1 != i)) i = none := by
  apply lookupAlloc_of_not_mem
  intro a ha
  have := List.of_mem_filter ha
  simpa using this

theorem lookupAlloc_filter_elim {m : AllocMap} {i id : Nat} {s : String}
    (h : lookupAlloc (m.filter (fun a => a.1 != i)) id = some s) :
    lookupAlloc m id = some s ∧ id ≠ i := by
  by_cases hne : id = i
  · subst hne
    rw [lookupAlloc_filter_self] at h
    cases h
  · rw [lookupAlloc_filter_ne hne] at h
    exact ⟨h, hne⟩

theorem tableGet_some {t : List Entry} {h : Nat} {p : StringRef → Bool} {r : StringRef}
    (hg : tableGet t h p = some r) :
    ∃ e ∈ t, e.hash = h ∧ e.ref = r ∧ p r = true := by
  unfold tableGet at hg
  match hf : t.find? (fun e => e.hash == h && p e.ref) with
  | none => rw [hf] at hg; cases hg
  | some e =>
    rw [hf] at hg
    simp only [Option.map_some', Option.some.injEq] at hg
    have hm := List.mem_of_find?_eq_some hf
    have hp := List.find?_some hf
    simp only [Bool.and_eq_true, beq_iff_eq] at hp
    exact ⟨e, hm, hp.1, hg, hg ▸ hp.2⟩

theorem tableGet_eq_none {t : List Entry} {h : Nat} {p : StringRef → Bool}
    (hall : ∀ e ∈ t, e.hash = h → p e.ref = false) : tableGet t h p = none := by
  unfold tableGet
  rw [List.find?_eq_none.mpr]
  · rfl
  · intro e he
    simp only [Bool.and_eq_true, beq_iff_eq, not_and]
    intro hh
    simp [hall e he hh]

theorem tableGet_none_elim {t : List Entry} {h : Nat} {p : StringRef → Bool}
    (hg : tableGet t h p = none) : ∀ e ∈ t, e.hash = h → p e.ref = false := by
  unfold tableGet at hg
  match hf : t.find? (fun e => e.hash == h && p e.ref) with
  | some e => rw [hf] at hg; cases hg
  | none =>
    have := List.find?_eq_none.mp hf
    intro e he hh
    have hne := this e he
    simp only [Bool.and_eq_true, beq_iff_eq, not_and] at hne
    by_cases hp : p e.ref
    · exact absurd hp (fun hp' => hne hh hp')
    · simpa using hp

theorem refEq_heap_elim {P : Params} {m : AllocMap} {s : String} {id : Nat}
    (h : refEq P m s (.heap id) = true) :
    ∃ content, lookupAlloc m id = some content ∧ strBytes s = strBytes content := by
  simp only [refEq] at h
  match hl : lookupAlloc m id with
  | none => rw [hl] at h; cases h
  | some content =>
    rw [hl] at h
    unfold displayEq at h
    simp only [beq_iff_eq] at h
    exact ⟨content, rfl, h⟩

theorem refEq_static_elim {P : Params} {m : AllocMap} {s : String} {ptr : Nat}
    (h : refEq P m s (.static ptr) = true) : strBytes s = strBytes (P.env ptr) := by
  simp only [refEq, displayEq] at h
  simpa using h

theorem refEq_heap_intro {P : Params} {m : AllocMap} {s content : String} {id : Nat}
    (hl : lookupAlloc m id = some content) (hb : strBytes s = strBytes content) :
    refEq P m s (.heap id) = true := by
  simp only [refEq, displayEq]
  rw [hl]
  simpa using hb

theorem refEq_static_intro {P : Params} {m : AllocMap} {s : String} {ptr : Nat}
    (hb : strBytes s = strBytes (P.env ptr)) : refEq P m s (.static ptr) = true := by
  simp only [refEq, displayEq]
  simpa using hb

theorem eraseFirst_none {pred : Entry → Bool} : ∀ {t : List Entry},
    eraseFirst pred t = none → ∀ e ∈ t, pred e = false := by
  intro t
  induction t with
  | nil => intro _ e he; cases he
  | cons x t ih =>
    intro h e he
    unfold eraseFirst at h
    split at h
    · cases h
    · rename_i hx
      rcases List.mem_cons.mp he with rfl | he'
      · simpa using hx
      · match hr : eraseFirst pred t with
        | some t' => rw [hr] at h; cases h
        | none => exact ih hr e he'

theorem eraseFirst_some_spec {pred : Entry → Bool} : ∀ {t t' : List Entry},
    eraseFirst pred t = some t' →
    ∃ l e r, t = l ++ e :: r ∧ (∀ x ∈ l, pred x = false) ∧ pred e = true ∧ t' = l ++ r := by
  intro t
  induction t with
  | nil => intro t' h; cases h
  | cons x t ih =>
    intro t' h
    unfold eraseFirst at h
    split at h
    · rename_i hx
      injection h with h2
      subst h2
      exact ⟨[], x, t, rfl, by simp, hx, rfl⟩
    · rename_i hx
      match hr : eraseFirst pred t with
      | none => rw [hr] at h; cases h
      | some t₀ =>
        rw [hr] at h
        simp only [Option.map_some', Option.some.injEq] at h
        obtain ⟨l, e, r, ht, hl, he, ht'⟩ := ih hr
        refine ⟨x :: l, e, r, by simp [ht], ?_, he, by simp [← h, ht']⟩
        intro y hy
        rcases List.mem_cons.mp hy with rfl | hy'
        · simpa using hx
        · exact hl y hy'

theorem overwriteFirst_none {pred : Entry → Bool} {ptr : Nat} : ∀ {t : List Entry},
    overwriteFirst pred ptr t = none → ∀ e ∈ t, pred e = false := by
  intro t
  induction t with
  | nil => intro _ e he; cases he
  | cons x t ih =>
    intro h e he
    unfold overwriteFirst at h
    split at h
    · split at h <;> cases h
    · rename_i hx
      rcases List.mem_cons.mp he with rfl | he'
      · simpa using hx
      · match hr : overwriteFirst pred ptr t with
        | some t' => rw [hr] at h; cases h
        | none => exact ih hr e he'

theorem overwriteFirst_some_spec {pred : Entry → Bool} {ptr : Nat} : ∀ {t t' : List Entry},
    overwriteFirst pred ptr t = some t' →
    ∃ l e r, t = l ++ e :: r ∧ (∀ x ∈ l, pred x = false) ∧ pred e = true ∧
      ((∃ q, e.ref = .static q ∧ t' = l ++ e :: r) ∨
       (∃ i, e.ref = .heap i ∧ t' = l ++ ⟨e.hash, .static ptr⟩ :: r)) := by
  intro t
  induction t with
  | nil => intro t' h; cases h
  | cons x t ih =>
    intro t' h
    unfold overwriteFirst at h
    split at h
    · rename_i hx
      match hxr : x.ref with
      | .static q =>
        rw [hxr] at h
        injection h with h2
        subst h2
        exact ⟨[], x, t, rfl, by simp, hx, .inl ⟨q, hxr, rfl⟩⟩
      | .heap i =>
        rw [hxr] at h
        injection h with h2
        subst h2
        exact ⟨[], x, t, rfl, by simp, hx, .inr ⟨i, hxr, rfl⟩⟩
    · rename_i hx
      match hr : overwriteFirst pred ptr t with
      | none => rw [hr] at h; cases h
      | some t₀ =>
        rw [hr] at h
        simp only [Option.map_some', Option.some.injEq] at h
        obtain ⟨l, e, r, ht, hl, he, hcase⟩ := ih hr
        refine ⟨x :: l, e, r, by simp [ht], ?_, he, ?_⟩
        · intro y hy
          rcases List.mem_cons.mp hy with rfl | hy'
          · simpa using hx
          · exact hl y hy'
        · rcases hcase with ⟨q, hq, ht'⟩ | ⟨i, hi, ht'⟩
          · exact .inl ⟨q, hq, by simp [← h, ht']⟩
          · exact .inr ⟨i, hi, by simp [← h, ht']⟩

theorem countP_le_one_mem_eq {α : Type} {p : α → Bool} : ∀ {l : List α} {a b : α},
    l.countP p ≤ 1 → a ∈ l → b ∈ l → p a = true → p b = true → a = b := by
  intro l
  induction l with
  | nil => intro a b _ ha; cases ha
  | cons x l ih =>
    intro a b hc ha hb hpa hpb
    rw [List.countP_cons] at hc
    by_cases hx : p x
    · have hl0 : l.countP p = 0 := by
        rw [if_pos hx] at hc
        omega
      have hnone : ∀ y ∈ l, ¬ p y = true := List.countP_eq_zero.mp hl0
      rcases List.mem_cons.mp ha with rfl | ha'
      · rcases List.mem_cons.mp hb with rfl | hb'
        · rfl
        · exact absurd hpb (hnone b hb')
      · exact absurd hpa (hnone a ha')
    · rcases List.mem_cons.mp ha with rfl | ha'
      · exact absurd hpa (by simpa using hx)
      · rcases List.mem_cons.mp hb with rfl | hb'
        · exact absurd hpb (by simpa using hx)
        · have hle : l.countP p ≤ 1 := by
            rw [if_neg hx] at hc
            omega
          exact ih hle ha' hb' hpa hpb

/-! ## The interning invariant -/

/-- The content a table record currently resolves to, if it is live:
a heap record is live while its weak upgrade succeeds, a static record
always. -/
def entryLive (P : Params) (allocs : AllocMap) (e : Entry) : Option String :=
  match e.ref with
  | .heap id => lookupAlloc allocs id
  | .static ptr => some (P.env ptr)

/-- Does the entry currently resolve to content byte-equal to `s`? -/
def liveMatch (P : Params) (allocs : AllocMap) (s : String) (e : Entry) : Bool :=
  match entryLive P allocs e with
  | some content => strBytes content == strBytes s
  | none => false

/-- The inductive invariant of the interner. -/
structure Inv (P : Params) (c : Cfg) : Prop where
  handle_live : ∀ id s, StringRepr.heap id s ∈ c.handles →
    lookupAlloc c.st.allocs id = some s
  alloc_live : ∀ id s, lookupAlloc c.st.allocs id = some s →
    StringRepr.heap id s ∈ c.handles
  alloc_unique : ∀ id₁ s₁ id₂ s₂, lookupAlloc c.st.allocs id₁ = some s₁ →
    lookupAlloc c.st.allocs id₂ = some s₂ → strBytes s₁ = strBytes s₂ → id₁ = id₂
  alloc_entry : ∀ id s, lookupAlloc c.st.allocs id = some s →
    ∃ e ∈ c.st.table, e.hash = P.hashStr s ∧
      (e.ref = .heap id ∨ ∃ p, e.ref = .static p ∧ P.env p = s)
  entry_hash_heap : ∀ e ∈ c.st.table, ∀ id s, e.ref = .heap id →
    lookupAlloc c.st.allocs id = some s → e.hash = P.hashStr s
  entry_hash_static : ∀ e ∈ c.st.table, ∀ p, e.ref = .static p →
    e.hash = P.hashStr (P.env p)
  live_unique : ∀ s, c.st.table.countP (liveMatch P c.st.allocs s) ≤ 1
  fresh_alloc : ∀ a ∈ c.st.allocs, a.1 < c.st.nextId
  fresh_table : ∀ e ∈ c.st.table, ∀ id, e.ref = .heap id → id < c.st.nextId
  fresh_handle : ∀ id s, StringRepr.heap id s ∈ c.handles → id < c.st.nextId

theorem inv_init (P : Params) : Inv P initCfg := by
  constructor <;> simp [initCfg, lookupAlloc, List.find?]

theorem entryLive_ref_heap {P : Params} {allocs : AllocMap} {e : Entry} {id : Nat}
    (h : e.ref = .heap id) : entryLive P allocs e = lookupAlloc allocs id := by
  unfold entryLive
  rw [h]

theorem entryLive_ref_static {P : Params} {allocs : AllocMap} {e : Entry} {p : Nat}
    (h : e.ref = .static p) : entryLive P allocs e = some (P.env p) := by
  unfold entryLive
  rw [h]

theorem liveMatch_congr_entryLive {P : Params} {allocs allocs' : AllocMap} {s : String}
    {e : Entry} (h : entryLive P allocs e = entryLive P allocs' e) :
    liveMatch P allocs s e = liveMatch P allocs' s e := by
  unfold liveMatch
  rw [h]

theorem liveMatch_elim {P : Params} {allocs : AllocMap} {s : String} {e : Entry}
    (h : liveMatch P allocs s e = true) :
    ∃ content, entryLive P allocs e = some content ∧ strBytes content = strBytes s := by
  unfold liveMatch at h
  match hl : entryLive P allocs e with
  | none => rw [hl] at h; cases h
  | some content =>
    rw [hl] at h
    simp only [beq_iff_eq] at h
    exact ⟨content, rfl, h⟩

theorem liveMatch_intro {P : Params} {allocs : AllocMap} {s content : String} {e : Entry}
    (hl : entryLive P allocs e = some content) (hb : strBytes content = strBytes s) :
    liveMatch P allocs s e = true := by
  unfold liveMatch
  rw [hl]
  simpa using hb

theorem lookupAlloc_append_ne {m : AllocMap} {n id : Nat} {x : String} (hne : id ≠ n) :
    lookupAlloc (m ++ [(n, x)]) id = lookupAlloc m id := by
  unfold lookupAlloc
  rw [List.find?_append]
  cases hf : m.find? (fun a => a.1 == id) with
  | some a => simp [Option.or]
  | none =>
    have : (n == id) = false := by simp; omega
    simp [Option.or, List.find?, this]

theorem strongCount_zero_elim {hs : List StringRepr} {id : Nat}
    (h : strongCount hs id = 0) : ∀ x, StringRepr.heap id x ∉ hs := by
  intro x hmem
  unfold strongCount at h
  rw [List.length_eq_zero] at h
  have : StringRepr.heap id x ∈ (hs.filter
      (fun h => match h with | .heap id' _ => id' == id | _ => false)) := by
    apply List.mem_filter_of_mem hmem
    simp
  rw [h] at this
  cases this

theorem strongCount_pos_elim {hs : List StringRepr} {id : Nat}
    (h : strongCount hs id ≠ 0) : ∃ x, StringRepr.heap id x ∈ hs := by
  unfold strongCount at h
  match hf : hs.filter (fun h => match h with | .heap id' _ => id' == id | _ => false) with
  | [] => rw [hf] at h; simp at h
  | y :: t =>
    have hy : y ∈ hs.filter (fun h => match h with | .heap id' _ => id' == id | _ => false) := by
      rw [hf]; simp
    have hmem := List.mem_of_mem_filter hy
    have hp := List.of_mem_filter hy
    cases y with
    | heap id' x =>
      simp only [beq_iff_eq] at hp
      subst hp
      exact ⟨x, hmem⟩
    | stack b => simp at hp
    | static p => simp at hp

theorem strongCount_pos_intro {hs : List StringRepr} {id : Nat} {x : String}
    (h : StringRepr.heap id x ∈ hs) : strongCount hs id ≠ 0 := by
  intro h0
  exact strongCount_zero_elim h0 x h

theorem mem_append_cons_of_mem_append {α : Type} {x h : α} {l r : List α}
    (hm : x ∈ l ++ r) : x ∈ l ++ h :: r := by
  rcases List.mem_append.mp hm with h' | h'
  · exact List.mem_append_left _ h'
  · exact List.mem_append_right _ (List.mem_cons_of_mem _ h')

theorem mem_append_of_mem_append_cons_ne {α : Type} {x h : α} {l r : List α}
    (hm : x ∈ l ++ h :: r) (hne : x ≠ h) : x ∈ l ++ r := by
  rcases List.mem_append.mp hm with h' | h'
  · exact List.mem_append_left _ h'
  · rcases List.mem_cons.mp h' with rfl | h''
    · exact absurd rfl hne
    · exact List.mem_append_right _ h''

/-! ## Path equations for `intern` and `intern_static` -/

theorem intern_stack {P : Params} {s : String} {st : St}
    (hlen : (strBytes s).length ≤ 20) :
    intern P s st = (.stack (strBytes s), st) := by
  simp only [intern, hash_and_stack, stackCapture_single_of_le hlen]

theorem intern_hit_heap {P : Params} {s content : String} {st : St} {id : Nat}
    (hlen : 20 < (strBytes s).length)
    (hg : tableGet st.table (P.hashStr s) (refEq P st.allocs s) = some (.heap id))
    (hl : lookupAlloc st.allocs id = some content) :
    intern P s st = (.heap id content, st) := by
  simp only [intern, hash_and_stack, stackCapture_single_of_gt hlen, hg, hl]

theorem intern_hit_static {P : Params} {s : String} {st : St} {ptr : Nat}
    (hlen : 20 < (strBytes s).length)
    (hg : tableGet st.table (P.hashStr s) (refEq P st.allocs s) = some (.static ptr)) :
    intern P s st = (.static ptr, st) := by
  simp only [intern, hash_and_stack, stackCapture_single_of_gt hlen, hg]

theorem intern_miss {P : Params} {s : String} {st : St}
    (hlen : 20 < (strBytes s).length)
    (hg : tableGet st.table (P.hashStr s) (refEq P st.allocs s) = none) :
    intern P s st = internCreate s (P.hashStr s) st := by
  simp only [intern, internWrite, hash_and_stack, stackCapture_single_of_gt hlen, hg]

theorem intern_cases (P : Params) (s : String) (st : St)
    (hlen : 20 < (strBytes s).length) :
    (∃ id content,
        tableGet st.table (P.hashStr s) (refEq P st.allocs s) = some (.heap id) ∧
        lookupAlloc st.allocs id = some content ∧ strBytes s = strBytes content ∧
        intern P s st = (.heap id content, st)) ∨
    (∃ ptr, tableGet st.table (P.hashStr s) (refEq P st.allocs s) = some (.static ptr) ∧
        strBytes s = strBytes (P.env ptr) ∧ intern P s st = (.static ptr, st)) ∨
    (tableGet st.table (P.hashStr s) (refEq P st.allocs s) = none ∧
        intern P s st = internCreate s (P.hashStr s) st) := by
  match hg : tableGet st.table (P.hashStr s) (refEq P st.allocs s) with
  | some (.heap id) =>
    obtain ⟨e, hmem, hh, hr, hp⟩ := tableGet_some hg
    obtain ⟨content, hl, hb⟩ := refEq_heap_elim hp
    exact .inl ⟨id, content, rfl, hl, hb, intern_hit_heap hlen hg hl⟩
  | some (.static ptr) =>
    obtain ⟨e, hmem, hh, hr, hp⟩ := tableGet_some hg
    exact .inr (.inl ⟨ptr, rfl, refEq_static_elim hp, intern_hit_static hlen hg⟩)
  | none =>
    exact .inr (.inr ⟨rfl, intern_miss hlen hg⟩)

theorem intern_static_stack {P : Params} {ptr : Nat} {st : St}
    (hlen : (strBytes (P.env ptr)).length ≤ 20) :
    intern_static P ptr st = (.stack (strBytes (P.env ptr)), st) := by
  simp only [intern_static, hash_and_stack, stackCapture_single_of_le hlen]

theorem intern_static_found {P : Params} {ptr : Nat} {st : St} {t : List Entry}
    (hlen : 20 < (strBytes (P.env ptr)).length)
    (hov : overwriteFirst
        (entryPred P st.allocs (P.env ptr) (P.hashStr (P.env ptr))) ptr st.table = some t) :
    intern_static P ptr st = (.static ptr, { st with table := t }) := by
  simp only [intern_static, hash_and_stack, stackCapture_single_of_gt hlen, hov]

theorem intern_static_miss {P : Params} {ptr : Nat} {st : St}
    (hlen : 20 < (strBytes (P.env ptr)).length)
    (hov : overwriteFirst
        (entryPred P st.allocs (P.env ptr) (P.hashStr (P.env ptr))) ptr st.table = none) :
    intern_static P ptr st = (.static ptr,
      { st with table := st.table ++ [⟨P.hashStr (P.env ptr), .static ptr⟩] }) := by
  simp only [intern_static, hash_and_stack, stackCapture_single_of_gt hlen, hov]

/-! ## Preservation of the invariant by every step -/

/-- Adding a non-heap handle without touching the state preserves the
invariant. -/
theorem inv_cons_nonheap {P : Params} {c : Cfg} {h : StringRepr} (hI : Inv P c)
    (hnh : ∀ id s, h ≠ .heap id s) : Inv P ⟨c.st, h :: c.handles⟩ := by
  obtain ⟨h1, h2, h3, h4, h5, h6, h7, h8, h9, h10⟩ := hI
  refine ⟨?_, ?_, h3, h4, h5, h6, h7, h8, h9, ?_⟩
  · intro id s hmem
    rcases List.mem_cons.mp hmem with heq | hmem'
    · exact absurd heq.symm (hnh id s)
    · exact h1 id s hmem'
  · intro id s hl
    exact List.mem_cons_of_mem _ (h2 id s hl)
  · intro id s hmem
    rcases List.mem_cons.mp hmem with heq | hmem'
    · exact absurd heq.symm (hnh id s)
    · exact h10 id s hmem'

/-- Adding a heap handle that is backed by a live allocation, without
touching the state, preserves the invariant. -/
theorem inv_cons_live_heap {P : Params} {c : Cfg} {id : Nat} {content : String}
    (hI : Inv P c) (hl : lookupAlloc c.st.allocs id = some content) :
    Inv P ⟨c.st, .heap id content :: c.handles⟩ := by
  obtain ⟨h1, h2, h3, h4, h5, h6, h7, h8, h9, h10⟩ := hI
  refine ⟨?_, ?_, h3, h4, h5, h6, h7, h8, h9, ?_⟩
  · intro id' s' hmem
    rcases List.mem_cons.mp hmem with heq | hmem'
    · injection heq with e1 e2
      subst e1
      subst e2
      exact hl
    · exact h1 id' s' hmem'
  · intro id' s' hl'
    exact List.mem_cons_of_mem _ (h2 id' s' hl')
  · intro id' s' hmem
    rcases List.mem_cons.mp hmem with heq | hmem'
    · injection heq with e1 e2
      subst e1
      exact h8 _ (lookupAlloc_mem hl)
    · exact h10 id' s' hmem'

theorem inv_from_static {P : Params} {c : Cfg} (ptr : Nat) (hI : Inv P c) :
    Inv P ⟨c.st, from_static ptr :: c.handles⟩ :=
  inv_cons_nonheap hI (by intro id s h; simp [from_static] at h)

theorem inv_clone {P : Params} {c : Cfg} {h : StringRepr} (hI : Inv P c)
    (hm : h ∈ c.handles) : Inv P ⟨c.st, h :: c.handles⟩ := by
  match h with
  | .heap id content => exact inv_cons_live_heap hI (hI.handle_live id content hm)
  | .stack b => exact inv_cons_nonheap hI (by intro id s hh; simp at hh)
  | .static p => exact inv_cons_nonheap hI (by intro id s hh; simp at hh)

theorem countP_singleton_le_one {α : Type} (p : α → Bool) (x : α) :
    List.countP p [x] ≤ 1 := by
  rw [List.countP_cons]
  simp only [List.countP_nil]
  split <;> omega

/-- On a confirmed table miss, a table has no record that is live with the
candidate's bytes (the contrapositive of the lookup's completeness). -/
theorem no_liveMatch_of_miss {P : Params} {c : Cfg} {s : String} (hI : Inv P c)
    (hg : tableGet c.st.table (P.hashStr s) (refEq P c.st.allocs s) = none) :
    ∀ e ∈ c.st.table, liveMatch P c.st.allocs s e = false := by
  have hmiss := tableGet_none_elim hg
  intro e he
  cases hlm : liveMatch P c.st.allocs s e
  · rfl
  · exfalso
    obtain ⟨content, hel, hbc⟩ := liveMatch_elim hlm
    have hcs : content = s := strBytes_injective hbc
    subst hcs
    match hre : e.ref with
    | .heap idh =>
      have hlk : lookupAlloc c.st.allocs idh = some content := by
        rw [entryLive_ref_heap hre] at hel
        exact hel
      have hh : e.hash = P.hashStr content := hI.entry_hash_heap e he idh content hre hlk
      have hcontr := hmiss e he hh
      rw [hre] at hcontr
      rw [refEq_heap_intro hlk rfl] at hcontr
      cases hcontr
    | .static p =>
      have hep : P.env p = content := by
        rw [entryLive_ref_static hre] at hel
        injection hel
      have hh : e.hash = P.hashStr content := by
        rw [hI.entry_hash_static e he p hre, hep]
      have hcontr := hmiss e he hh
      rw [hre] at hcontr
      rw [refEq_static_intro (by rw [hep])] at hcontr
      cases hcontr

/-- On a confirmed table miss, no live allocation holds the candidate's
bytes (every live allocation is indexed by a live record). -/
theorem no_alloc_of_miss {P : Params} {c : Cfg} {s : String} (hI : Inv P c)
    (hg : tableGet c.st.table (P.hashStr s) (refEq P c.st.allocs s) = none) :
    ∀ id' c', lookupAlloc c.st.allocs id' = some c' → strBytes c' ≠ strBytes s := by
  have hnolive := no_liveMatch_of_miss hI hg
  intro id' c' hl' hb'
  obtain ⟨e, he, hh, hdis⟩ := hI.alloc_entry id' c' hl'
  have hlm : liveMatch P c.st.allocs s e = true := by
    rcases hdis with hdis | ⟨p, hdis, hps⟩
    · exact liveMatch_intro (by rw [entryLive_ref_heap hdis]; exact hl') hb'
    · exact liveMatch_intro (by rw [entryLive_ref_static hdis, hps]) hb'
  rw [hnolive e he] at hlm
  cases hlm

theorem inv_internCreate {P : Params} {c : Cfg} {s : String}
    (hI : Inv P c) (hlen : 20 < (strBytes s).length)
    (hg : tableGet c.st.table (P.hashStr s) (refEq P c.st.allocs s) = none) :
    Inv P ⟨(internCreate s (P.hashStr s) c.st).2,
           (internCreate s (P.hashStr s) c.st).1 :: c.handles⟩ := by
  have hnolive := no_liveMatch_of_miss hI hg
  have hnoalloc := no_alloc_of_miss hI hg
  obtain ⟨h1, h2, h3, h4, h5, h6, h7, h8, h9, h10⟩ := hI
  have hfresh : lookupAlloc c.st.allocs c.st.nextId = none :=
    lookupAlloc_of_not_mem (fun a ha => Nat.ne_of_lt (h8 a ha))
  simp only [internCreate]
  constructor
  · -- handle_live
    intro id' s' hmem
    rcases List.mem_cons.mp hmem with heq | hmem'
    · cases heq
      exact lookupAlloc_append_self hfresh
    · exact lookupAlloc_append_some (h1 id' s' hmem')
  · -- alloc_live
    intro id' s' hl'
    rcases lookupAlloc_append_elim hl' with hold | ⟨rfl, rfl⟩
    · exact List.mem_cons_of_mem _ (h2 id' s' hold)
    · exact List.mem_cons_self _ _
  · -- alloc_unique
    intro id₁ s₁ id₂ s₂ hl₁ hl₂ hb
    rcases lookupAlloc_append_elim hl₁ with hold₁ | ⟨rfl, rfl⟩
    · rcases lookupAlloc_append_elim hl₂ with hold₂ | ⟨rfl, rfl⟩
      · exact h3 id₁ s₁ id₂ s₂ hold₁ hold₂ hb
      · exact absurd hb (hnoalloc id₁ s₁ hold₁)
    · rcases lookupAlloc_append_elim hl₂ with hold₂ | ⟨rfl, rfl⟩
      · exact absurd hb.symm (hnoalloc id₂ s₂ hold₂)
      · rfl
  · -- alloc_entry
    intro id' s' hl'
    rcases lookupAlloc_append_elim hl' with hold | ⟨rfl, rfl⟩
    · obtain ⟨e, he, hh, hdis⟩ := h4 id' s' hold
      exact ⟨e, List.mem_append_left _ he, hh, hdis⟩
    · exact ⟨⟨_, .heap c.st.nextId⟩,
        List.mem_append_right _ (by simp), rfl, .inl rfl⟩
  · -- entry_hash_heap
    intro e he id' s' hre hl'
    rcases List.mem_append.mp he with he' | he'
    · rcases lookupAlloc_append_elim hl' with hold | ⟨rfl, rfl⟩
      · exact h5 e he' id' s' hre hold
      · exact absurd (h9 e he' c.st.nextId hre) (by omega)
    · have he2 : e = ⟨P.hashStr s, .heap c.st.nextId⟩ := by simpa using he'
      subst he2
      injection hre with e1
      subst e1
      rcases lookupAlloc_append_elim hl' with hold | ⟨-, rfl⟩
      · rw [hfresh] at hold
        cases hold
      · rfl
  · -- entry_hash_static
    intro e he p hre
    rcases List.mem_append.mp he with he' | he'
    · exact h6 e he' p hre
    · have he2 : e = ⟨P.hashStr s, .heap c.st.nextId⟩ := by simpa using he'
      subst he2
      cases hre
  · -- live_unique
    intro s₀
    rw [List.countP_append]
    have hsame : c.st.table.countP
          (liveMatch P (c.st.allocs ++ [(c.st.nextId, s)]) s₀) =
        c.st.table.countP (liveMatch P c.st.allocs s₀) := by
      apply List.countP_congr
      intro e he
      have hel : entryLive P (c.st.allocs ++ [(c.st.nextId, s)]) e =
          entryLive P c.st.allocs e := by
        match hre : e.ref with
        | .heap idh =>
          have hidh : idh < c.st.nextId := h9 e he idh hre
          rw [entryLive_ref_heap hre, entryLive_ref_heap hre,
            lookupAlloc_append_ne (by omega)]
        | .static p =>
          rw [entryLive_ref_static hre, entryLive_ref_static hre]
      rw [liveMatch_congr_entryLive hel]
    rw [hsame]
    by_cases hbs : strBytes s = strBytes s₀
    · have hz : c.st.table.countP (liveMatch P c.st.allocs s₀) = 0 := by
        apply List.countP_eq_zero.mpr
        intro e he hlm
        obtain ⟨content, hel, hbc⟩ := liveMatch_elim hlm
        have hlm' : liveMatch P c.st.allocs s e = true :=
          liveMatch_intro hel (by rw [hbc, ← hbs])
        rw [hnolive e he] at hlm'
        cases hlm'
      rw [hz]
      have := countP_singleton_le_one
        (liveMatch P (c.st.allocs ++ [(c.st.nextId, s)]) s₀)
        (⟨P.hashStr s, .heap c.st.nextId⟩ : Entry)
      dsimp only
      omega
    · have h0 : List.countP (liveMatch P (c.st.allocs ++ [(c.st.nextId, s)]) s₀)
          [⟨P.hashStr s, .heap c.st.nextId⟩] = 0 := by
        apply List.countP_eq_zero.mpr
        intro e he
        have he2 : e = ⟨P.hashStr s, .heap c.st.nextId⟩ := by simpa using he
        subst he2
        intro hlm
        obtain ⟨content, hel, hbc⟩ := liveMatch_elim hlm
        have hcs : content = s := by
          rw [entryLive_ref_heap rfl, lookupAlloc_append_self hfresh] at hel
          injection hel with hx
          exact hx.symm
        subst hcs
        exact hbs (by rw [hbc])
      dsimp only
      rw [h0]
      have := h7 s₀
      omega
  · -- fresh_alloc
    intro a ha
    rcases List.mem_append.mp ha with ha' | ha'
    · have := h8 a ha'
      dsimp only
      omega
    · have ha2 : a = (c.st.nextId, s) := by simpa using ha'
      subst ha2
      dsimp only
      omega
  · -- fresh_table
    intro e he id' hre
    rcases List.mem_append.mp he with he' | he'
    · have := h9 e he' id' hre
      dsimp only
      omega
    · have he2 : e = ⟨P.hashStr s, .heap c.st.nextId⟩ := by simpa using he'
      subst he2
      injection hre with e1
      dsimp only
      omega
  · -- fresh_handle
    intro id' s' hmem
    rcases List.mem_cons.mp hmem with heq | hmem'
    · cases heq
      dsimp only
      omega
    · have := h10 id' s' hmem'
      dsimp only
      omega

theorem inv_intern {P : Params} {c : Cfg} (s : String) (hI : Inv P c) :
    Inv P ⟨(intern P s c.st).2, (intern P s c.st).1 :: c.handles⟩ := by
  by_cases hlen : (strBytes s).length ≤ 20
  · rw [intern_stack hlen]
    exact inv_cons_nonheap hI (by intro id x hh; simp at hh)
  · push_neg at hlen
    rcases intern_cases P s c.st hlen with
      ⟨id, content, hg, hl, hb, heq⟩ | ⟨ptr, hg, hb, heq⟩ | ⟨hg, heq⟩
    · rw [heq]
      exact inv_cons_live_heap hI hl
    · rw [heq]
      exact inv_cons_nonheap hI (by intro id x hh; simp at hh)
    · rw [heq]
      exact inv_internCreate hI hlen hg

theorem inv_intern_static_found {P : Params} {c : Cfg} {ptr : Nat} {t : List Entry}
    (hI : Inv P c) (hlen : 20 < (strBytes (P.env ptr)).length)
    (hov : overwriteFirst
        (entryPred P c.st.allocs (P.env ptr) (P.hashStr (P.env ptr))) ptr c.st.table = some t) :
    Inv P ⟨{ c.st with table := t }, .static ptr :: c.handles⟩ := by
  obtain ⟨l, e, r, ht, hlpred, hepred, hcase⟩ := overwriteFirst_some_spec hov
  rcases hcase with ⟨q, hq, ht'⟩ | ⟨i, hi, ht'⟩
  · -- the found slot is already static: nothing is overwritten
    subst ht'
    rw [← ht]
    have hst : ({ c.st with table := c.st.table } : St) = c.st := rfl
    rw [hst]
    exact inv_cons_nonheap hI (by intro idx x hh; simp at hh)
  · -- a live heap slot is redirected to the static memory
    subst ht'
    unfold entryPred at hepred
    simp only [Bool.and_eq_true, beq_iff_eq] at hepred
    obtain ⟨hhash, href⟩ := hepred
    rw [hi] at href
    obtain ⟨content, hlk, hbc⟩ := refEq_heap_elim href
    have hcs : P.env ptr = content := strBytes_injective hbc
    obtain ⟨h1, h2, h3, h4, h5, h6, h7, h8, h9, h10⟩ := hI
    constructor
    · -- handle_live
      intro id' s' hmem
      rcases List.mem_cons.mp hmem with heq | hmem'
      · cases heq
      · exact h1 id' s' hmem'
    · -- alloc_live
      intro id' s' hl'
      exact List.mem_cons_of_mem _ (h2 id' s' hl')
    · exact h3
    · -- alloc_entry
      intro id' s' hl'
      obtain ⟨w, hw, hwh, hdis⟩ := h4 id' s' hl'
      rw [ht] at hw
      rcases List.mem_append.mp hw with hw' | hw'
      · exact ⟨w, List.mem_append_left _ hw', hwh, hdis⟩
      rcases List.mem_cons.mp hw' with rfl | hw''
      · -- the witness is the overwritten slot
        rcases hdis with hdis | ⟨p, hdis, hps⟩
        · rw [hi] at hdis
          injection hdis with e1
          subst e1
          have hsc : s' = content := Option.some_injective _ (hl'.symm.trans hlk)
          subst hsc
          refine ⟨⟨w.hash, .static ptr⟩,
            List.mem_append_right _ (List.mem_cons_self _ _), hwh, .inr ⟨ptr, rfl, ?_⟩⟩
          rw [hcs]
        · rw [hi] at hdis
          cases hdis
      · exact ⟨w, List.mem_append_right _ (List.mem_cons_of_mem _ hw''), hwh, hdis⟩
    · -- entry_hash_heap
      intro w hw id' s' hre hl'
      rcases List.mem_append.mp hw with hw' | hw'
      · exact h5 w (by rw [ht]; exact List.mem_append_left _ hw') id' s' hre hl'
      rcases List.mem_cons.mp hw' with rfl | hw''
      · cases hre
      · exact h5 w (by
          rw [ht]
          exact List.mem_append_right _ (List.mem_cons_of_mem _ hw'')) id' s' hre hl'
    · -- entry_hash_static
      intro w hw p hre
      rcases List.mem_append.mp hw with hw' | hw'
      · exact h6 w (by rw [ht]; exact List.mem_append_left _ hw') p hre
      rcases List.mem_cons.mp hw' with rfl | hw''
      · injection hre with e1
        subst e1
        dsimp only
        rw [hhash]
      · exact h6 w (by
          rw [ht]
          exact List.mem_append_right _ (List.mem_cons_of_mem _ hw'')) p hre
    · -- live_unique
      intro s₀
      have hT := h7 s₀
      rw [ht] at hT
      rw [List.countP_append, List.countP_cons] at hT ⊢
      have hlm : liveMatch P c.st.allocs s₀ (⟨e.hash, .static ptr⟩ : Entry) =
          liveMatch P c.st.allocs s₀ e := by
        unfold liveMatch
        rw [entryLive_ref_static rfl, entryLive_ref_heap hi, hlk, hcs]
      rw [hlm]
      exact hT
    · exact h8
    · -- fresh_table
      intro w hw id' hre
      rcases List.mem_append.mp hw with hw' | hw'
      · exact h9 w (by rw [ht]; exact List.mem_append_left _ hw') id' hre
      rcases List.mem_cons.mp hw' with rfl | hw''
      · cases hre
      · exact h9 w (by
          rw [ht]
          exact List.mem_append_right _ (List.mem_cons_of_mem _ hw'')) id' hre
    · -- fresh_handle
      intro id' s' hmem
      rcases List.mem_cons.mp hmem with heq | hmem'
      · cases heq
      · exact h10 id' s' hmem'

theorem inv_intern_static_insert {P : Params} {c : Cfg} {ptr : Nat}
    (hI : Inv P c) (hlen : 20 < (strBytes (P.env ptr)).length)
    (hov : overwriteFirst
        (entryPred P c.st.allocs (P.env ptr) (P.hashStr (P.env ptr))) ptr c.st.table = none) :
    Inv P ⟨{ c.st with
        table := c.st.table ++ [⟨P.hashStr (P.env ptr), .static ptr⟩] },
      .static ptr :: c.handles⟩ := by
  have hpredf := overwriteFirst_none hov
  have hg : tableGet c.st.table (P.hashStr (P.env ptr))
      (refEq P c.st.allocs (P.env ptr)) = none := by
    apply tableGet_eq_none
    intro e he hh
    have hp := hpredf e he
    unfold entryPred at hp
    rw [hh] at hp
    simpa using hp
  have hnolive := no_liveMatch_of_miss hI hg
  obtain ⟨h1, h2, h3, h4, h5, h6, h7, h8, h9, h10⟩ := hI
  constructor
  · -- handle_live
    intro id' s' hmem
    rcases List.mem_cons.mp hmem with heq | hmem'
    · cases heq
    · exact h1 id' s' hmem'
  · intro id' s' hl'
    exact List.mem_cons_of_mem _ (h2 id' s' hl')
  · exact h3
  · -- alloc_entry
    intro id' s' hl'
    obtain ⟨w, hw, hwh, hdis⟩ := h4 id' s' hl'
    exact ⟨w, List.mem_append_left _ hw, hwh, hdis⟩
  · -- entry_hash_heap
    intro w hw id' s' hre hl'
    rcases List.mem_append.mp hw with hw' | hw'
    · exact h5 w hw' id' s' hre hl'
    · have hw2 : w = ⟨P.hashStr (P.env ptr), .static ptr⟩ := by simpa using hw'
      subst hw2
      cases hre
  · -- entry_hash_static
    intro w hw p hre
    rcases List.mem_append.mp hw with hw' | hw'
    · exact h6 w hw' p hre
    · have hw2 : w = ⟨P.hashStr (P.env ptr), .static ptr⟩ := by simpa using hw'
      subst hw2
      injection hre with e1
      subst e1
      rfl
  · -- live_unique
    intro s₀
    rw [List.countP_append]
    by_cases hbs : strBytes (P.env ptr) = strBytes s₀
    · have hz : c.st.table.countP (liveMatch P c.st.allocs s₀) = 0 := by
        apply List.countP_eq_zero.mpr
        intro w hw hlm
        obtain ⟨content, hel, hbc⟩ := liveMatch_elim hlm
        have hlm' : liveMatch P c.st.allocs (P.env ptr) w = true :=
          liveMatch_intro hel (by rw [hbc, ← hbs])
        rw [hnolive w hw] at hlm'
        cases hlm'
      rw [hz]
      have := countP_singleton_le_one (liveMatch P c.st.allocs s₀)
        (⟨P.hashStr (P.env ptr), .static ptr⟩ : Entry)
      dsimp only
      omega
    · have h0 : List.countP (liveMatch P c.st.allocs s₀)
          [⟨P.hashStr (P.env ptr), .static ptr⟩] = 0 := by
        apply List.countP_eq_zero.mpr
        intro w hw
        have hw2 : w = ⟨P.hashStr (P.env ptr), .static ptr⟩ := by simpa using hw
        subst hw2
        intro hlm
        obtain ⟨content, hel, hbc⟩ := liveMatch_elim hlm
        rw [entryLive_ref_static rfl] at hel
        injection hel with hx
        subst hx
        exact hbs (by rw [hbc])
      dsimp only
      rw [h0]
      have := h7 s₀
      omega
  · exact h8
  · -- fresh_table
    intro w hw id' hre
    rcases List.mem_append.mp hw with hw' | hw'
    · exact h9 w hw' id' hre
    · have hw2 : w = ⟨P.hashStr (P.env ptr), .static ptr⟩ := by simpa using hw'
      subst hw2
      cases hre
  · -- fresh_handle
    intro id' s' hmem
    rcases List.mem_cons.mp hmem with heq | hmem'
    · cases heq
    · exact h10 id' s' hmem'

theorem inv_intern_static {P : Params} {c : Cfg} (ptr : Nat) (hI : Inv P c) :
    Inv P ⟨(intern_static P ptr c.st).2, (intern_static P ptr c.st).1 :: c.handles⟩ := by
  by_cases hlen : (strBytes (P.env ptr)).length ≤ 20
  · rw [intern_static_stack hlen]
    exact inv_cons_nonheap hI (by intro id x hh; simp at hh)
  · push_neg at hlen
    match hov : overwriteFirst
        (entryPred P c.st.allocs (P.env ptr) (P.hashStr (P.env ptr))) ptr c.st.table with
    | some t =>
      rw [intern_static_found hlen hov]
      exact inv_intern_static_found hI hlen hov
    | none =>
      rw [intern_static_miss hlen hov]
      exact inv_intern_static_insert hI hlen hov

theorem tableStringDrop_sublist (P : Params) (content : String) (hs : List StringRepr)
    (t : List Entry) : (tableStringDrop P content hs t).Sublist t := by
  unfold tableStringDrop
  match h1 : eraseFirst (fun e => e.hash == P.hashStr content && expiredPred hs e.ref) t with
  | some t' =>
    obtain ⟨l, e, r, ht, -, -, ht'⟩ := eraseFirst_some_spec h1
    rw [ht, ht']
    exact List.Sublist.append_left (List.sublist_cons_self e r) l
  | none =>
    match h2 : eraseFirst (fun e => e.hash == P.emptyHash && expiredPred hs e.ref) t with
    | some t' =>
      obtain ⟨l, e, r, ht, -, -, ht'⟩ := eraseFirst_some_spec h2
      rw [ht, ht']
      exact List.Sublist.append_left (List.sublist_cons_self e r) l
    | none => exact List.Sublist.refl t

/-- The destructor's erase removes only expired records: a record whose
content is still live survives every `TableString` drop. -/
theorem tableStringDrop_mem_of_live {P : Params} {content : String} {hs : List StringRepr}
    {t : List Entry} {e : Entry} (he : e ∈ t) (hlive : expiredPred hs e.ref = false) :
    e ∈ tableStringDrop P content hs t := by
  unfold tableStringDrop
  match h1 : eraseFirst (fun e => e.hash == P.hashStr content && expiredPred hs e.ref) t with
  | some t' =>
    obtain ⟨l, e₀, r, ht, -, hp, ht'⟩ := eraseFirst_some_spec h1
    simp only [Bool.and_eq_true] at hp
    have hne : e ≠ e₀ := by
      intro hcontr
      rw [← hcontr] at hp
      rw [hlive] at hp
      exact absurd hp.2 (by simp)
    rw [ht']
    rw [ht] at he
    exact mem_append_of_mem_append_cons_ne he hne
  | none =>
    match h2 : eraseFirst (fun e => e.hash == P.emptyHash && expiredPred hs e.ref) t with
    | some t' =>
      obtain ⟨l, e₀, r, ht, -, hp, ht'⟩ := eraseFirst_some_spec h2
      simp only [Bool.and_eq_true] at hp
      have hne : e ≠ e₀ := by
        intro hcontr
        rw [← hcontr] at hp
        rw [hlive] at hp
        exact absurd hp.2 (by simp)
      rw [ht']
      rw [ht] at he
      exact mem_append_of_mem_append_cons_ne he hne
    | none => exact he

/-- Removing one handle, with the state untouched, preserves the invariant
as long as the allocation of a removed heap handle is still referenced by
another live handle. -/
theorem inv_sub_handles {P : Params} {c : Cfg} {l r : List StringRepr} {h : StringRepr}
    (hI : Inv P c) (hsplit : c.handles = l ++ h :: r)
    (hkeep : ∀ id s, h = .heap id s → ∃ x, StringRepr.heap id x ∈ l ++ r) :
    Inv P ⟨c.st, l ++ r⟩ := by
  obtain ⟨h1, h2, h3, h4, h5, h6, h7, h8, h9, h10⟩ := hI
  refine ⟨?_, ?_, h3, h4, h5, h6, h7, h8, h9, ?_⟩
  · intro id s hmem
    exact h1 id s (by rw [hsplit]; exact mem_append_cons_of_mem_append hmem)
  · intro id s hl
    have hmem := h2 id s hl
    rw [hsplit] at hmem
    by_cases heq : (StringRepr.heap id s : StringRepr) = h
    · obtain ⟨x, hx⟩ := hkeep id s heq.symm
      have hlx := h1 id x (by rw [hsplit]; exact mem_append_cons_of_mem_append hx)
      have hxs : x = s := Option.some_injective _ (hlx.symm.trans hl)
      rw [← hxs]
      exact hx
    · exact mem_append_of_mem_append_cons_ne hmem heq
  · intro id s hmem
    exact h10 id s (by rw [hsplit]; exact mem_append_cons_of_mem_append hmem)

theorem inv_drop {P : Params} {c : Cfg} {l r : List StringRepr} {h : StringRepr}
    (hI : Inv P c) (hsplit : c.handles = l ++ h :: r) :
    Inv P ⟨dropHandle P h (l ++ r) c.st, l ++ r⟩ := by
  match h with
  | .stack b =>
    exact inv_sub_handles hI hsplit (by intro id s hh; cases hh)
  | .static p =>
    exact inv_sub_handles hI hsplit (by intro id s hh; cases hh)
  | .heap id content =>
    by_cases hsc : strongCount (l ++ r) id = 0
    · -- last owner: deallocate and run the TableString destructor
      have hdh : dropHandle P (.heap id content) (l ++ r) c.st =
          { c.st with
            allocs := c.st.allocs.filter (fun a => a.1 != id),
            table := tableStringDrop P content (l ++ r) c.st.table } := by
        simp only [dropHandle]
        rw [if_pos (by simpa using hsc)]
      rw [hdh]
      have hnot := strongCount_zero_elim hsc
      obtain ⟨h1, h2, h3, h4, h5, h6, h7, h8, h9, h10⟩ := hI
      constructor
      · -- handle_live
        intro id' s' hmem
        have hne : id' ≠ id := by
          intro hcontr
          rw [hcontr] at hmem
          exact hnot s' hmem
        dsimp only
        rw [lookupAlloc_filter_ne hne]
        exact h1 id' s' (by rw [hsplit]; exact mem_append_cons_of_mem_append hmem)
      · -- alloc_live
        intro id' s' hl'
        obtain ⟨hold, hne⟩ := lookupAlloc_filter_elim hl'
        have hmem := h2 id' s' hold
        rw [hsplit] at hmem
        refine mem_append_of_mem_append_cons_ne hmem ?_
        intro hcontr
        injection hcontr with e1 e2
        exact hne e1
      · -- alloc_unique
        intro id₁ s₁ id₂ s₂ hl₁ hl₂ hb
        exact h3 id₁ s₁ id₂ s₂ (lookupAlloc_filter_elim hl₁).1 (lookupAlloc_filter_elim hl₂).1 hb
      · -- alloc_entry
        intro id' s' hl'
        obtain ⟨hold, hne⟩ := lookupAlloc_filter_elim hl'
        obtain ⟨w, hw, hwh, hdis⟩ := h4 id' s' hold
        have hlive : expiredPred (l ++ r) w.ref = false := by
          rcases hdis with hdis | ⟨p, hdis, hps⟩
          · rw [hdis]
            have hmem := h2 id' s' hold
            rw [hsplit] at hmem
            have hmem' : StringRepr.heap id' s' ∈ l ++ r := by
              refine mem_append_of_mem_append_cons_ne hmem ?_
              intro hcontr
              injection hcontr with e1 e2
              exact hne e1
            unfold expiredPred
            simp only [beq_eq_false_iff_ne, ne_eq]
            exact strongCount_pos_intro hmem'
          · rw [hdis]
            rfl
        exact ⟨w, tableStringDrop_mem_of_live hw hlive, hwh, hdis⟩
      · -- entry_hash_heap
        intro w hw id' s' hre hl'
        exact h5 w ((tableStringDrop_sublist P content (l ++ r) c.st.table).subset hw)
          id' s' hre (lookupAlloc_filter_elim hl').1
      · -- entry_hash_static
        intro w hw p hre
        exact h6 w ((tableStringDrop_sublist P content (l ++ r) c.st.table).subset hw) p hre
      · -- live_unique
        intro s₀
        have m1 : ∀ e ∈ tableStringDrop P content (l ++ r) c.st.table,
            liveMatch P (c.st.allocs.filter (fun a => a.1 != id)) s₀ e = true →
            liveMatch P c.st.allocs s₀ e = true := by
          intro e he hlm
          obtain ⟨content', hel, hbc⟩ := liveMatch_elim hlm
          refine liveMatch_intro ?_ hbc
          match hre : e.ref with
          | .heap j =>
            rw [entryLive_ref_heap hre] at hel ⊢
            exact (lookupAlloc_filter_elim hel).1
          | .static p =>
            rw [entryLive_ref_static hre] at hel ⊢
            exact hel
        calc (tableStringDrop P content (l ++ r) c.st.table).countP
              (liveMatch P (c.st.allocs.filter (fun a => a.1 != id)) s₀)
            ≤ (tableStringDrop P content (l ++ r) c.st.table).countP
              (liveMatch P c.st.allocs s₀) := List.countP_mono_left m1
          _ ≤ c.st.table.countP (liveMatch P c.st.allocs s₀) :=
              (tableStringDrop_sublist P content (l ++ r) c.st.table).countP_le _
          _ ≤ 1 := h7 s₀
      · -- fresh_alloc
        intro a ha
        exact h8 a (List.mem_of_mem_filter ha)
      · -- fresh_table
        intro w hw id' hre
        exact h9 w ((tableStringDrop_sublist P content (l ++ r) c.st.table).subset hw) id' hre
      · -- fresh_handle
        intro id' s' hmem
        exact h10 id' s' (by rw [hsplit]; exact mem_append_cons_of_mem_append hmem)
    · -- other owners remain: no deallocation, no table change
      have hdh : dropHandle P (.heap id content) (l ++ r) c.st = c.st := by
        simp only [dropHandle]
        rw [if_neg (by simpa using hsc)]
      rw [hdh]
      apply inv_sub_handles hI hsplit
      intro id' s' hh
      injection hh with e1 e2
      subst e1
      exact strongCount_pos_elim hsc

theorem inv_step {P : Params} {c c' : Cfg} (hI : Inv P c) (hs : Step P c c') : Inv P c' := by
  cases hs with
  | intern s c => exact inv_intern s hI
  | intern_static ptr c => exact inv_intern_static ptr hI
  | from_static ptr c => exact inv_from_static ptr hI
  | clone h c hm => exact inv_clone hI hm
  | drop l r h c hsplit => exact inv_drop hI hsplit

theorem inv_reachesFrom {P : Params} {a b : Cfg} (hr : ReachesFrom P a b)
    (hI : Inv P a) : Inv P b := by
  induction hr with
  | refl => exact hI
  | tail _ hs ih => exact inv_step ih hs

/-- Every reachable configuration satisfies the interning invariant. -/
theorem inv_reachable {P : Params} {c : Cfg} (hr : Reachable P c) : Inv P c :=
  inv_reachesFrom hr (inv_init P)

/-! ## Shared helper lemmas for the claim theorems -/

/-- Interning round-trips: the returned handle decodes to the interned text.
The stack path decodes its captured encoding; a hit returns a record whose
content the `DisplayEq` predicate certified byte-equal; a miss stores the
text itself. -/
theorem intern_as_str (P : Params) (s : String) (st : St) :
    ((intern P s st).1).as_str P = s := by
  by_cases hlen : (strBytes s).length ≤ 20
  · rw [intern_stack hlen]
    show (strFromUtf8 (strBytes s)).getD "" = s
    rw [strFromUtf8_strBytes]
    rfl
  · push_neg at hlen
    rcases intern_cases P s st hlen with
      ⟨id, content, hg, hl, hb, heq⟩ | ⟨ptr, hg, hb, heq⟩ | ⟨hg, heq⟩
    · rw [heq]
      exact (strBytes_injective hb).symm
    · rw [heq]
      exact (strBytes_injective hb).symm
    · rw [heq]
      rfl

/-- In a reachable configuration, `PartialEq` answering `true` implies the
two handles decode to the same text. -/
theorem reprEq_as_str {P : Params} {cfg : Cfg} (hI : Inv P cfg) {a b : StringRepr}
    (ha : a ∈ cfg.handles) (hb : b ∈ cfg.handles) (he : reprEq P a b = true) :
    a.as_str P = b.as_str P := by
  match a, b with
  | .heap i cc, .heap j d =>
    simp only [reprEq, beq_iff_eq] at he
    subst he
    have l1 := hI.handle_live i cc ha
    have l2 := hI.handle_live i d hb
    have hcd : cc = d := Option.some_injective _ (l1.symm.trans l2)
    simp [StringRepr.as_str, hcd]
  | .static p, .static q =>
    simp only [reprEq, beq_iff_eq] at he
    subst he
    rfl
  | .heap i cc, .stack bs => simpa only [reprEq, beq_iff_eq] using he
  | .heap i cc, .static q => simpa only [reprEq, beq_iff_eq] using he
  | .stack bs, .heap j d => simpa only [reprEq, beq_iff_eq] using he
  | .stack bs, .stack bs' => simpa only [reprEq, beq_iff_eq] using he
  | .stack bs, .static q => simpa only [reprEq, beq_iff_eq] using he
  | .static p, .heap j d => simpa only [reprEq, beq_iff_eq] using he
  | .static p, .stack bs' => simpa only [reprEq, beq_iff_eq] using he

theorem strBytes_flatten (chunks : List String) :
    ∃ s : String, strBytes s = (chunks.map strBytes).flatten := by
  induction chunks with
  | nil => exact ⟨"", by simp [strBytes, utf8Encode]⟩
  | cons c cs ih =>
    obtain ⟨s, hs⟩ := ih
    exact ⟨c ++ s, by simp [strBytes_append, hs]⟩

/-- A static table record survives any single step. -/
theorem step_static_mem {P : Params} {c c' : Cfg} (hs : Step P c c')
    {e : Entry} {p : Nat} (hrefs : e.ref = .static p) (he : e ∈ c.st.table) :
    e ∈ c'.st.table := by
  cases hs with
  | intern s c =>
    by_cases hlen : (strBytes s).length ≤ 20
    · rw [intern_stack hlen]
      exact he
    · push_neg at hlen
      rcases intern_cases P s c.st hlen with
        ⟨id, content, hg, hl, hb, heq⟩ | ⟨ptr, hg, hb, heq⟩ | ⟨hg, heq⟩
      · rw [heq]
        exact he
      · rw [heq]
        exact he
      · rw [heq]
        exact List.mem_append_left _ he
  | intern_static ptr c =>
    by_cases hlen : (strBytes (P.env ptr)).length ≤ 20
    · rw [intern_static_stack hlen]
      exact he
    · push_neg at hlen
      match hov : overwriteFirst
          (entryPred P c.st.allocs (P.env ptr) (P.hashStr (P.env ptr))) ptr c.st.table with
      | some t =>
        rw [intern_static_found hlen hov]
        obtain ⟨l, e₀, r, ht, -, -, hcase⟩ := overwriteFirst_some_spec hov
        rcases hcase with ⟨q, hq, ht'⟩ | ⟨i, hi, ht'⟩
        · rw [ht']
          rw [ht] at he
          exact he
        · rw [ht']
          rw [ht] at he
          have hne : e ≠ e₀ := by
            intro hcontr
            rw [hcontr, hi] at hrefs
            cases hrefs
          exact mem_append_cons_of_mem_append (mem_append_of_mem_append_cons_ne he hne)
      | none =>
        rw [intern_static_miss hlen hov]
        exact List.mem_append_left _ he
  | from_static ptr c => exact he
  | clone h c hm => exact he
  | drop l r h c hsplit =>
    match h with
    | .stack b => exact he
    | .static q => exact he
    | .heap id content =>
      by_cases hsc : strongCount (l ++ r) id = 0
      · have hdh : dropHandle P (.heap id content) (l ++ r) c.st =
            { c.st with
              allocs := c.st.allocs.filter (fun a => a.1 != id),
              table := tableStringDrop P content (l ++ r) c.st.table } := by
          simp only [dropHandle]
          rw [if_pos (by simpa using hsc)]
        rw [hdh]
        exact tableStringDrop_mem_of_live he (by rw [hrefs]; rfl)
      · have hdh : dropHandle P (.heap id content) (l ++ r) c.st = c.st := by
          simp only [dropHandle]
          rw [if_neg (by simpa using hsc)]
        rw [hdh]
        exact he

/-- A static table record, once present, is present in every later
configuration: static records are never removed. -/
theorem static_entry_persists {P : Params} {a b : Cfg} (hr : ReachesFrom P a b)
    {e : Entry} {p : Nat} (hrefs : e.ref = .static p) (he : e ∈ a.st.table) :
    e ∈ b.st.table := by
  induction hr with
  | refl => exact he
  | tail _ hs ih => exact step_static_mem hs hrefs ih

/-! ## Concrete parameters and traces used by the witnesses -/

/-- Parameters for witnesses: empty static strings, constant hash. -/
def P0 : Params := ⟨fun _ => "", fun _ => 0, 0⟩

/-- Parameters whose static string 0 holds the short text `"a"`. -/
def Pa : Params := ⟨fun _ => "a", fun _ => 0, 0⟩

/-- A 21-character (21-byte) string, above the 20-byte stack capacity. -/
def longA : String := String.mk (List.replicate 21 'a')

/-- Parameters whose every static string holds `longA`. -/
def PaL : Params := ⟨fun _ => longA, fun _ => 0, 0⟩

/-- After one `intern longA` from the empty state. -/
def cfgA : Cfg :=
  ⟨(intern P0 longA initCfg.st).2, (intern P0 longA initCfg.st).1 :: initCfg.handles⟩

theorem reachA : Reachable P0 cfgA :=
  .tail (.refl _) (Step.intern longA initCfg)

/-- Configuration `cfgA` followed by `from_static 0`. -/
def cfgB : Cfg := ⟨cfgA.st, from_static 0 :: cfgA.handles⟩

theorem reachB : Reachable P0 cfgB :=
  .tail reachA (Step.from_static 0 cfgA)

/-- Configuration `cfgA` followed by a clone of the interned handle. -/
def cfgC : Cfg := ⟨cfgA.st, (intern P0 longA initCfg.st).1 :: cfgA.handles⟩

theorem reachC : Reachable P0 cfgC :=
  .tail reachA (Step.clone (intern P0 longA initCfg.st).1 cfgA (List.mem_cons_self _ _))

/-- After one `intern_static` of the long static string 0 from the empty
state. -/
def cfgS1 : Cfg :=
  ⟨(intern_static PaL 0 initCfg.st).2, (intern_static PaL 0 initCfg.st).1 :: initCfg.handles⟩

theorem reachS1 : Reachable PaL cfgS1 :=
  .tail (.refl _) (Step.intern_static 0 initCfg)

/-- Configuration `cfgS1` after dropping the returned handle. -/
def cfgS2 : Cfg :=
  ⟨dropHandle PaL (intern_static PaL 0 initCfg.st).1 ([] ++ []) cfgS1.st, [] ++ []⟩

theorem reachS2 : Reachable PaL cfgS2 :=
  .tail reachS1 (Step.drop [] [] (intern_static PaL 0 initCfg.st).1 cfgS1 rfl)

/-! ## The claims -/

/-- C1: in every reachable configuration, any two simultaneously alive heap
handles produced by `intern` for byte-equal content longer than 20 bytes
are identity-equal (same allocation id, hence the same `Arc`), and the
shared allocation is the single live canonical allocation for that
content. -/
theorem C1_canonical_allocation_unique (P : Params) (cfg : Cfg) (hr : Reachable P cfg)
    (id₁ id₂ : Nat) (s₁ s₂ : String)
    (h₁ : StringRepr.heap id₁ s₁ ∈ cfg.handles) (h₂ : StringRepr.heap id₂ s₂ ∈ cfg.handles)
    (hlen : 20 < (strBytes s₁).length) (hb : strBytes s₁ = strBytes s₂) :
    id₁ = id₂ ∧ s₁ = s₂ ∧ lookupAlloc cfg.st.allocs id₁ = some s₁ := by
  have hI := inv_reachable hr
  have l₁ := hI.handle_live id₁ s₁ h₁
  have l₂ := hI.handle_live id₂ s₂ h₂
  exact ⟨hI.alloc_unique id₁ s₁ id₂ s₂ l₁ l₂ hb, strBytes_injective hb, l₁⟩

theorem C1_witness :
    (StringRepr.heap 0 longA ∈ cfgC.handles) ∧ 20 < (strBytes longA).length ∧
    (0 = 0 ∧ longA = longA ∧ lookupAlloc cfgC.st.allocs 0 = some longA) :=
  ⟨by decide, by decide,
    C1_canonical_allocation_unique P0 cfgC reachC 0 0 longA longA
      (by decide) (by decide) (by decide) rfl⟩

/-- C2 counterexample: two `Static` handles backed by distinct static
pointers with equal content (as `from_static` can produce) decode to the
same text, yet `PartialEq` answers `false` — equality does not fall back to
content comparison for a Static/Static pair. -/
theorem C2_counterexample :
    (StringRepr.static 0).as_str Pa = (StringRepr.static 1).as_str Pa ∧
    reprEq Pa (StringRepr.static 0) (StringRepr.static 1) = false :=
  ⟨rfl, rfl⟩

/-- C2 (amended): equality implies byte-equal decoded text for every pair
of handles of a reachable configuration; for a pair in which at least one
operand is `Stack` or the variants differ, equality holds exactly when the
decoded texts are equal (identity fast path with content fall-back); but
for two `Heap` operands equality is allocation identity and for two
`Static` operands pointer identity, with no content fall-back. -/
theorem C2_eq_content (P : Params) :
    (∀ a b : StringRepr, sameVariantIdentity a b = false →
      (reprEq P a b = true ↔ a.as_str P = b.as_str P)) ∧
    (∀ i c j d, reprEq P (.heap i c) (.heap j d) = (i == j)) ∧
    (∀ p q, reprEq P (.static p) (.static q) = (p == q)) ∧
    (∀ cfg, Reachable P cfg → ∀ a b, a ∈ cfg.handles → b ∈ cfg.handles →
      reprEq P a b = true → a.as_str P = b.as_str P) := by
  refine ⟨?_, fun i c j d => rfl, fun p q => rfl, ?_⟩
  · intro a b hv
    match a, b with
    | .heap i cc, .heap j d => simp [sameVariantIdentity] at hv
    | .static p, .static q => simp [sameVariantIdentity] at hv
    | .heap i cc, .stack bs => simp only [reprEq, beq_iff_eq]
    | .heap i cc, .static q => simp only [reprEq, beq_iff_eq]
    | .stack bs, .heap j d => simp only [reprEq, beq_iff_eq]
    | .stack bs, .stack bs' => simp only [reprEq, beq_iff_eq]
    | .stack bs, .static q => simp only [reprEq, beq_iff_eq]
    | .static p, .heap j d => simp only [reprEq, beq_iff_eq]
    | .static p, .stack bs' => simp only [reprEq, beq_iff_eq]
  · intro cfg hr a b ha hb he
    exact reprEq_as_str (inv_reachable hr) ha hb he

theorem C2_witness :
    sameVariantIdentity (StringRepr.stack [104]) (StringRepr.static 0) = false ∧
    (reprEq Pa (StringRepr.stack [104]) (StringRepr.static 0) = true ↔
      (StringRepr.stack [104]).as_str Pa = (StringRepr.static 0).as_str Pa) :=
  ⟨rfl, (C2_eq_content Pa).1 (StringRepr.stack [104]) (StringRepr.static 0) rfl⟩

/-- C3: for text whose encoding fits in 20 bytes, `intern` returns the
inline Stack handle, leaves the whole state (allocations and table)
untouched — so its result does not depend on the state at all — and any
two such calls produce content-equal handles decoding to the text. -/
theorem C3_short_text_stack (P : Params) (s : String) (st₁ st₂ : St)
    (hlen : (strBytes s).length ≤ 20) :
    intern P s st₁ = (.stack (strBytes s), st₁) ∧
    ((intern P s st₁).1).as_str P = ((intern P s st₂).1).as_str P ∧
    ((intern P s st₁).1).as_str P = s := by
  refine ⟨intern_stack hlen, ?_, intern_as_str P s st₁⟩
  rw [intern_as_str P s st₁, intern_as_str P s st₂]

theorem C3_witness :
    (strBytes "hi").length ≤ 20 ∧
    (intern P0 "hi" initCfg.st = (.stack (strBytes "hi"), initCfg.st) ∧
     ((intern P0 "hi" initCfg.st).1).as_str P0 = ((intern P0 "hi" cfgA.st).1).as_str P0 ∧
     ((intern P0 "hi" initCfg.st).1).as_str P0 = "hi") :=
  ⟨by decide, C3_short_text_stack P0 "hi" initCfg.st cfgA.st (by decide)⟩

/-- C4 counterexample: `from_static` wraps its reference directly, so a
handle for 1-byte content (`≤ 20` bytes) constructed through `from_static`
has the Static representation, not Stack. -/
theorem C4_counterexample :
    (strBytes (Pa.env 0)).length ≤ 20 ∧
    from_static 0 = StringRepr.static 0 ∧
    ¬ ∃ b, from_static 0 = StringRepr.stack b := by
  refine ⟨by decide, rfl, ?_⟩
  intro ⟨b, hb⟩
  cases hb

/-- C4 (amended): under `intern`, `from_display` and `intern_static`,
content encoding to at most 20 bytes always gets the Stack representation
and never touches the state; `from_static`, however, always yields the
Static representation regardless of length. -/
theorem C4_short_content_stack (P : Params) :
    (∀ s st, (strBytes s).length ≤ 20 → intern P s st = (.stack (strBytes s), st)) ∧
    (∀ s st, (strBytes s).length ≤ 20 → from_display P s st = (.stack (strBytes s), st)) ∧
    (∀ ptr st, (strBytes (P.env ptr)).length ≤ 20 →
      intern_static P ptr st = (.stack (strBytes (P.env ptr)), st)) ∧
    (∀ ptr, from_static ptr = StringRepr.static ptr) :=
  ⟨fun _ _ hlen => intern_stack hlen,
   fun _ _ hlen => intern_stack hlen,
   fun _ _ hlen => intern_static_stack hlen,
   fun _ => rfl⟩

theorem C4_witness :
    (strBytes (Pa.env 0)).length ≤ 20 ∧
    intern_static Pa 0 initCfg.st = (.stack (strBytes (Pa.env 0)), initCfg.st) :=
  ⟨by decide, (C4_short_content_stack Pa).2.2.1 0 initCfg.st (by decide)⟩

/-- C5 counterexample: after `intern_static` of a 21-byte text and the drop
of every handle, the table still holds a live (static) record for that
content, and a subsequent `intern` returns the static record instead of
creating a fresh canonical allocation. -/
theorem C5_counterexample :
    cfgS2.handles = [] ∧
    ((⟨0, .static 0⟩ : Entry) ∈ cfgS2.st.table ∧
      entryLive PaL cfgS2.st.allocs ⟨0, .static 0⟩ = some longA) ∧
    (intern PaL longA cfgS2.st).1 = StringRepr.static 0 :=
  ⟨rfl, ⟨by decide, by decide⟩, by decide⟩

/-- C5 (amended): for text longer than 20 bytes that was never registered
static, once every handle for it is dropped the table holds no live record
for that content (the destructor's erase only ever removes records whose
weak reference has no remaining owners), and a subsequent `intern` creates
a fresh canonical allocation that is not identity-equal to any live
handle's allocation. -/
theorem C5_drop_then_reintern (P : Params) (cfg : Cfg) (hr : Reachable P cfg) (s : String)
    (hlen : 20 < (strBytes s).length)
    (hhandles : ∀ h ∈ cfg.handles, strBytes (h.as_str P) ≠ strBytes s)
    (hnostatic : ∀ e ∈ cfg.st.table, ∀ p, e.ref = .static p →
      strBytes (P.env p) ≠ strBytes s) :
    (∀ e ∈ cfg.st.table, ∀ c', entryLive P cfg.st.allocs e = some c' →
      strBytes c' ≠ strBytes s) ∧
    (intern P s cfg.st).1 = .heap cfg.st.nextId s ∧
    (∀ id x, StringRepr.heap id x ∈ cfg.handles → id ≠ cfg.st.nextId) := by
  have hI := inv_reachable hr
  have hnolive : ∀ e ∈ cfg.st.table, ∀ c', entryLive P cfg.st.allocs e = some c' →
      strBytes c' ≠ strBytes s := by
    intro e he c' hel hbc
    match hre : e.ref with
    | .heap j =>
      rw [entryLive_ref_heap hre] at hel
      have hmem := hI.alloc_live j c' hel
      exact hhandles _ hmem hbc
    | .static p =>
      rw [entryLive_ref_static hre] at hel
      have hpc : P.env p = c' := Option.some_injective _ hel
      exact hnostatic e he p hre (by rw [hpc]; exact hbc)
  have hg : tableGet cfg.st.table (P.hashStr s) (refEq P cfg.st.allocs s) = none := by
    apply tableGet_eq_none
    intro e he hh
    cases hre2 : e.ref with
    | heap j =>
      cases hrq : refEq P cfg.st.allocs s (.heap j) with
      | false => rfl
      | true =>
        exfalso
        obtain ⟨cc, hlk, hbc⟩ := refEq_heap_elim hrq
        exact hnolive e he cc (by rw [entryLive_ref_heap hre2]; exact hlk) hbc.symm
    | static p =>
      cases hrq : refEq P cfg.st.allocs s (.static p) with
      | false => rfl
      | true =>
        exfalso
        have hbc := refEq_static_elim hrq
        exact hnolive e he (P.env p)
          (by rw [entryLive_ref_static hre2]) hbc.symm
  refine ⟨hnolive, ?_, ?_⟩
  · rw [intern_miss hlen hg]
    rfl
  · intro id x hmem hcontr
    have := hI.fresh_handle id x hmem
    omega

theorem C5_witness :
    (20 < (strBytes longA).length) ∧
    ((∀ e ∈ cfgA.st.table, ∀ c', entryLive P0 cfgA.st.allocs e = some c' →
        strBytes c' ≠ strBytes (longA ++ "b")) ∧
      (intern P0 (longA ++ "b") cfgA.st).1 = .heap cfgA.st.nextId (longA ++ "b") ∧
      (∀ id x, StringRepr.heap id x ∈ cfgA.handles → id ≠ cfgA.st.nextId)) := by
  refine ⟨by decide, C5_drop_then_reintern P0 cfgA reachA (longA ++ "b") (by decide) ?_ ?_⟩
  · intro h hm
    have hh : h = StringRepr.heap 0 longA := by
      have : cfgA.handles = [StringRepr.heap 0 longA] := by decide
      rw [this] at hm
      simpa using hm
    subst hh
    decide
  · intro e he p hp
    have ht : cfgA.st.table = [⟨0, .heap 0⟩] := by decide
    rw [ht] at he
    have he2 : e = ⟨0, .heap 0⟩ := by simpa using he
    subst he2
    cases hp

/-- C6 counterexample: for text of at most 20 encoded bytes,
`intern_static` returns a Stack handle, so the handles do not share a
static pointer at all. -/
theorem C6_counterexample :
    (strBytes (Pa.env 0)).length ≤ 20 ∧
    (intern_static Pa 0 initCfg.st).1 = StringRepr.stack (strBytes "a") ∧
    (intern_static Pa 0 initCfg.st).1 ≠ StringRepr.static 0 :=
  ⟨by decide, by decide, by decide⟩

/-- C6 (amended): for a fixed static string of more than 20 encoded bytes,
provided no other static string of equal content is already in the table,
`intern_static` returns its static pointer, installs a static record, and
after any further sequence of operations both `intern` of that text and
`intern_static` of that string still return the exact same static pointer
— including when a heap-backed handle for equal text existed before — and
the static record is never removed. -/
theorem C6_intern_static_stable (P : Params) (ptr : Nat) (c₁ c₃ : Cfg)
    (hr : Reachable P c₁)
    (hlen : 20 < (strBytes (P.env ptr)).length)
    (hnodup : ∀ e ∈ c₁.st.table, ∀ q, e.ref = .static q →
      strBytes (P.env q) = strBytes (P.env ptr) → q = ptr)
    (hext : ReachesFrom P
      ⟨(intern_static P ptr c₁.st).2, (intern_static P ptr c₁.st).1 :: c₁.handles⟩ c₃) :
    (intern_static P ptr c₁.st).1 = .static ptr ∧
    (⟨P.hashStr (P.env ptr), .static ptr⟩ : Entry) ∈ c₃.st.table ∧
    (intern P (P.env ptr) c₃.st).1 = .static ptr ∧
    (intern_static P ptr c₃.st).1 = .static ptr := by
  have hI1 := inv_reachable hr
  have hI3 : Inv P c₃ :=
    inv_reachesFrom hext (inv_step hI1 (Step.intern_static ptr c₁))
  have hr3 : Reachable P c₃ :=
    (hr.tail (Step.intern_static ptr c₁)).trans hext
  -- the static record is installed by the first intern_static
  have hmem₂ : (⟨P.hashStr (P.env ptr), .static ptr⟩ : Entry) ∈
      (intern_static P ptr c₁.st).2.table := by
    match hov : overwriteFirst
        (entryPred P c₁.st.allocs (P.env ptr) (P.hashStr (P.env ptr))) ptr c₁.st.table with
    | some t =>
      rw [intern_static_found hlen hov]
      obtain ⟨l, e₀, r, ht, -, hp, hcase⟩ := overwriteFirst_some_spec hov
      have hmem0 : e₀ ∈ c₁.st.table := by
        rw [ht]
        exact List.mem_append_right l (List.mem_cons_self e₀ r)
      unfold entryPred at hp
      simp only [Bool.and_eq_true, beq_iff_eq] at hp
      obtain ⟨hhash, href⟩ := hp
      rcases hcase with ⟨q, hq, ht'⟩ | ⟨i, hi, ht'⟩
      · rw [hq] at href
        have hbq := refEq_static_elim href
        have hq' : q = ptr := hnodup e₀ hmem0 q hq hbq.symm
        have he₀ : e₀ = ⟨P.hashStr (P.env ptr), .static ptr⟩ := by
          cases e₀
          simp only [Entry.mk.injEq]
          refine ⟨hhash, ?_⟩
          simp only at hq
          rw [hq, hq']
        rw [ht', ← he₀]
        exact List.mem_append_right l (List.mem_cons_self e₀ r)
      · rw [ht', ← hhash]
        exact List.mem_append_right l (List.mem_cons_self _ r)
    | none =>
      rw [intern_static_miss hlen hov]
      exact List.mem_append_right _ (by simp)
  have hmem₃ : (⟨P.hashStr (P.env ptr), .static ptr⟩ : Entry) ∈ c₃.st.table :=
    static_entry_persists hext rfl hmem₂
  -- any lookup for this content in c₃ finds exactly the static record
  have hg : tableGet c₃.st.table (P.hashStr (P.env ptr))
      (refEq P c₃.st.allocs (P.env ptr)) = some (.static ptr) := by
    match hgm : tableGet c₃.st.table (P.hashStr (P.env ptr))
        (refEq P c₃.st.allocs (P.env ptr)) with
    | none =>
      exfalso
      have := tableGet_none_elim hgm _ hmem₃ rfl
      rw [refEq_static_intro rfl] at this
      cases this
    | some rref =>
      obtain ⟨e', he', hh', hr', hp'⟩ := tableGet_some hgm
      have hlm' : liveMatch P c₃.st.allocs (P.env ptr) e' = true := by
        rw [← hr'] at hp'
        match hre : e'.ref with
        | .heap j =>
          rw [hre] at hp'
          obtain ⟨cc, hlk, hbc⟩ := refEq_heap_elim hp'
          exact liveMatch_intro (by rw [entryLive_ref_heap hre]; exact hlk) hbc.symm
        | .static q =>
          rw [hre] at hp'
          have hbc := refEq_static_elim hp'
          exact liveMatch_intro (by rw [entryLive_ref_static hre]) hbc.symm
      have hlmt : liveMatch P c₃.st.allocs (P.env ptr)
          (⟨P.hashStr (P.env ptr), .static ptr⟩ : Entry) = true :=
        liveMatch_intro (entryLive_ref_static rfl) rfl
      have heq : e' = (⟨P.hashStr (P.env ptr), .static ptr⟩ : Entry) := by
        have hc := hI3.live_unique (P.env ptr)
        exact countP_le_one_mem_eq hc he' hmem₃ hlm' hlmt
      rw [heq] at hr'
      rw [← hr']
  refine ⟨?_, hmem₃, ?_, ?_⟩
  · match hov : overwriteFirst
        (entryPred P c₁.st.allocs (P.env ptr) (P.hashStr (P.env ptr))) ptr c₁.st.table with
    | some t => rw [intern_static_found hlen hov]
    | none => rw [intern_static_miss hlen hov]
  · rw [intern_hit_static hlen hg]
  · match hov : overwriteFirst
        (entryPred P c₃.st.allocs (P.env ptr) (P.hashStr (P.env ptr))) ptr c₃.st.table with
    | some t => rw [intern_static_found hlen hov]
    | none => rw [intern_static_miss hlen hov]

theorem C6_witness :
    (20 < (strBytes (PaL.env 0)).length) ∧
    ((intern_static PaL 0 initCfg.st).1 = .static 0 ∧
     (⟨PaL.hashStr (PaL.env 0), .static 0⟩ : Entry) ∈ cfgS1.st.table ∧
     (intern PaL (PaL.env 0) cfgS1.st).1 = .static 0 ∧
     (intern_static PaL 0 cfgS1.st).1 = .static 0) :=
  ⟨by decide,
    C6_intern_static_stable PaL 0 initCfg cfgS1 (.refl _) (by decide)
      (by intro e he; cases he) (.refl _)⟩

/-- C7: interning any Unicode text, the empty string included, yields a
handle that decodes (via `as_str`, the target of `Deref`) to exactly that
text, in every state. -/
theorem C7_roundtrip (P : Params) (s : String) (st : St) :
    ((intern P s st).1).as_str P = s :=
  intern_as_str P s st

/-- C8: on the handles of any reachable configuration, `Ord::cmp` computes
exactly the byte-wise lexicographic comparison of the decoded texts,
whatever representations back the operands, and answers `Equal` exactly
when the decoded texts coincide. -/
theorem C8_cmp_lexicographic (P : Params) (cfg : Cfg) (hr : Reachable P cfg)
    (a b : StringRepr) (ha : a ∈ cfg.handles) (hb : b ∈ cfg.handles) :
    reprCmp P a b = lexCmp (strBytes (a.as_str P)) (strBytes (b.as_str P)) ∧
    (reprCmp P a b = .eq ↔ a.as_str P = b.as_str P) := by
  have hI := inv_reachable hr
  have hmain : reprCmp P a b = lexCmp (strBytes (a.as_str P)) (strBytes (b.as_str P)) := by
    unfold reprCmp
    by_cases he : reprEq P a b
    · rw [if_pos he]
      rw [reprEq_as_str hI ha hb he]
      exact (lexCmp_self _).symm
    · rw [if_neg he]
      rfl
  refine ⟨hmain, ?_⟩
  rw [hmain]
  constructor
  · intro hcmp
    exact strBytes_injective ((lexCmp_eq_iff _ _).mp hcmp)
  · intro heq
    rw [heq]
    exact lexCmp_self _

theorem C8_witness :
    (StringRepr.static 0 ∈ cfgB.handles) ∧ (StringRepr.heap 0 longA ∈ cfgB.handles) ∧
    (reprCmp P0 (StringRepr.static 0) (StringRepr.heap 0 longA) =
      lexCmp (strBytes ((StringRepr.static 0).as_str P0))
        (strBytes ((StringRepr.heap 0 longA).as_str P0)) ∧
     (reprCmp P0 (StringRepr.static 0) (StringRepr.heap 0 longA) = .eq ↔
      (StringRepr.static 0).as_str P0 = (StringRepr.heap 0 longA).as_str P0)) :=
  ⟨by decide, by decide,
    C8_cmp_lexicographic P0 cfgB reachB (StringRepr.static 0) (StringRepr.heap 0 longA)
      (by decide) (by decide)⟩

/-- C9: deserializing raw bytes succeeds exactly when the bytes are
well-formed UTF-8 (the encoding of some text); on success the result is
precisely `intern` of that text (which decodes back to it), and on failure
the error carries the offending bytes. -/
theorem C9_visit_bytes (P : Params) (v : List Nat) (st : St) :
    ((∃ s : String, strBytes s = v) ↔ ∃ r, visit_bytes P v st = .ok r) ∧
    (∀ s : String, strBytes s = v → visit_bytes P v st = .ok (intern P s st)) ∧
    ((∀ s : String, strBytes s ≠ v) → visit_bytes P v st = .error v) ∧
    (∀ s : String, strBytes s = v → ((intern P s st).1).as_str P = s) := by
  have hok : ∀ s : String, strBytes s = v → visit_bytes P v st = .ok (intern P s st) := by
    intro s hs
    unfold visit_bytes
    rw [← hs, strFromUtf8_strBytes]
  refine ⟨⟨?_, ?_⟩, hok, ?_, fun s _ => intern_as_str P s st⟩
  · intro ⟨s, hs⟩
    exact ⟨intern P s st, hok s hs⟩
  · intro ⟨r, hr⟩
    unfold visit_bytes at hr
    match hm : strFromUtf8 v with
    | none => rw [hm] at hr; cases hr
    | some s => exact ⟨s, strFromUtf8_sound hm⟩
  · intro hno
    unfold visit_bytes
    match hm : strFromUtf8 v with
    | none => rfl
    | some s => exact absurd (strFromUtf8_sound hm) (hno s)

theorem C9_witness :
    strBytes "hi" = strBytes "hi" ∧
    visit_bytes P0 (strBytes "hi") initCfg.st = .ok (intern P0 "hi" initCfg.st) :=
  ⟨rfl, (C9_visit_bytes P0 (strBytes "hi") initCfg.st).2.1 "hi" rfl⟩

/-- C10: whenever the inline capture of `DisplayHasher` survives a sequence
of written chunks (each the encoding of a string), the buffer is the
encoding of an actual string — the capture appends only whole chunks and is
discarded rather than truncated on overflow — so the unchecked conversion
in `as_str` returns exactly that string. -/
theorem C10_stack_buffer_valid_utf8 (P : Params) (chunks : List String) (b : List Nat)
    (h : stackCapture (chunks.map strBytes) = some b) :
    ∃ s : String, strBytes s = b ∧ StringRepr.as_str P (.stack b) = s := by
  obtain ⟨hb, hle⟩ := stackCapture_some h
  obtain ⟨s, hs⟩ := strBytes_flatten chunks
  refine ⟨s, by rw [hs, hb], ?_⟩
  show (strFromUtf8 b).getD "" = s
  rw [hb, ← hs, strFromUtf8_strBytes]
  rfl

theorem C10_witness :
    stackCapture (["hi"].map strBytes) = some (strBytes "hi") ∧
    (∃ s : String, strBytes s = strBytes "hi" ∧
      StringRepr.as_str P0 (.stack (strBytes "hi")) = s) :=
  ⟨by decide, C10_stack_buffer_valid_utf8 P0 ["hi"] (strBytes "hi") (by decide)⟩

end Yasi
